import Mathlib

/-!
Verification of the usage-aggregation pipeline of `python-analyzer`.

Python dictionaries preserve insertion order, so every `dict` of the source is
embedded as an insertion-ordered association list `List (String × β)`; the
helpers below mirror the idioms of the source (`k in d`, `d[k] = v`,
`d.setdefault`-style "ensure then mutate", `list.extend`).
-/

namespace PythonAnalyzer

/-- Ordered dictionary with string keys, as Python `dict[str, β]`. -/
abbrev AList (β : Type) : Type := List (String × β)

/-- The keys of a dictionary, in insertion order. -/
def keysOf {β : Type} (m : AList β) : List String := m.map Prod.fst

/-- Python `k in d`. -/
def hasKey {β : Type} : AList β → String → Bool
  | [], _ => false
  | (k', _) :: rest, k => k' == k || hasKey rest k

/-- Reads `d[k]`, with an explicit result `d` for an absent key. -/
def lookupD {β : Type} : AList β → String → β → β
  | [], _, d => d
  | (k', v) :: rest, k, d => if k' = k then v else lookupD rest k d

/-- Mutates the entry of key `k` in place (all pairs with that key). -/
def updateKey {β : Type} : AList β → String → (β → β) → AList β
  | [], _, _ => []
  | (k', v) :: rest, k, f => (if k' = k then (k', f v) else (k', v)) :: updateKey rest k f

/-- Python `if k not in d: d[k] = dflt`. -/
def ensureKey {β : Type} (m : AList β) (k : String) (dflt : β) : AList β :=
  if hasKey m k then m else m ++ [(k, dflt)]

/-- Python `if k not in d: d[k] = dflt` followed by mutating `d[k]` with `f` in place. -/
def modEntry {β : Type} (m : AList β) (k : String) (dflt : β) (f : β → β) : AList β :=
  updateKey (ensureKey m k dflt) k f

/-- Python `if k not in d: d[k] = []` followed by `d[k].append a`. -/
def addEntry {β : Type} (m : AList (List β)) (k : String) (a : β) : AList (List β) :=
  modEntry m k [] (fun l => l ++ [a])

/-- Python `if k not in d: d[k] = []` followed by `d[k].extend occs`. -/
def extendEntry {β : Type} (m : AList (List β)) (k : String) (occs : List β) : AList (List β) :=
  modEntry m k [] (fun l => l ++ occs)

@[simp] theorem keysOf_nil {β : Type} : keysOf ([] : AList β) = [] := rfl

@[simp] theorem keysOf_cons {β : Type} (k : String) (v : β) (rest : AList β) :
    keysOf ((k, v) :: rest) = k :: keysOf rest := rfl

@[simp] theorem keysOf_append {β : Type} (m m' : AList β) :
    keysOf (m ++ m') = keysOf m ++ keysOf m' := by
  simp [keysOf]

theorem hasKey_iff {β : Type} (m : AList β) (k : String) :
    hasKey m k = true ↔ k ∈ keysOf m := by
  induction m with
  | nil => simp [hasKey]
  | cons p rest ih =>
      obtain ⟨k', v⟩ := p
      simp only [hasKey, keysOf_cons, List.mem_cons, Bool.or_eq_true, beq_iff_eq, ih]
      constructor
      · rintro (rfl | h)
        · exact Or.inl rfl
        · exact Or.inr h
      · rintro (rfl | h)
        · exact Or.inl rfl
        · exact Or.inr h

theorem lookupD_of_not_mem {β : Type} {m : AList β} {q : String} {d : β}
    (h : q ∉ keysOf m) : lookupD m q d = d := by
  induction m with
  | nil => rfl
  | cons p rest ih =>
      obtain ⟨k', v⟩ := p
      have hne : k' ≠ q := fun e => h (by simp [e])
      have h' : q ∉ keysOf rest := fun e => h (by simp [e])
      simp only [lookupD, if_neg hne]
      exact ih h'

theorem hasKey_eq_false {β : Type} {m : AList β} {k : String} (h : k ∉ keysOf m) :
    hasKey m k = false := by
  cases hh : hasKey m k
  · rfl
  · exact absurd ((hasKey_iff m k).mp hh) h

theorem keysOf_updateKey {β : Type} (m : AList β) (k : String) (f : β → β) :
    keysOf (updateKey m k f) = keysOf m := by
  induction m with
  | nil => rfl
  | cons p rest ih =>
      obtain ⟨k', v⟩ := p
      by_cases h : k' = k <;> simp [updateKey, h, ih]

theorem keysOf_ensureKey {β : Type} (m : AList β) (k : String) (dflt : β) :
    keysOf (ensureKey m k dflt) = if k ∈ keysOf m then keysOf m else keysOf m ++ [k] := by
  by_cases h : k ∈ keysOf m
  · simp [ensureKey, (hasKey_iff m k).mpr h, h]
  · rw [if_neg h]
    simp [ensureKey, hasKey_eq_false h]

theorem keysOf_modEntry {β : Type} (m : AList β) (k : String) (dflt : β) (f : β → β) :
    keysOf (modEntry m k dflt f) = if k ∈ keysOf m then keysOf m else keysOf m ++ [k] := by
  rw [modEntry, keysOf_updateKey, keysOf_ensureKey]

theorem mem_keysOf_modEntry {β : Type} (m : AList β) (k q : String) (dflt : β) (f : β → β) :
    q ∈ keysOf (modEntry m k dflt f) ↔ q ∈ keysOf m ∨ q = k := by
  rw [keysOf_modEntry]
  by_cases h : k ∈ keysOf m
  · simp only [h, if_true]
    constructor
    · exact fun hq => Or.inl hq
    · rintro (hq | rfl) <;> assumption
  · simp only [h, if_false, List.mem_append, List.mem_singleton]

theorem lookupD_updateKey_ne {β : Type} (m : AList β) (k q : String) (f : β → β) (d : β)
    (h : k ≠ q) : lookupD (updateKey m k f) q d = lookupD m q d := by
  induction m with
  | nil => rfl
  | cons p rest ih =>
      obtain ⟨k', v⟩ := p
      simp only [updateKey]
      by_cases hk : k' = k
      · subst hk
        rw [if_pos rfl]
        simp only [lookupD]
        rw [if_neg h, if_neg h, ih]
      · rw [if_neg hk]
        simp only [lookupD]
        by_cases hq : k' = q
        · rw [if_pos hq, if_pos hq]
        · rw [if_neg hq, if_neg hq, ih]

theorem lookupD_updateKey_self {β : Type} (m : AList β) (q : String) (f : β → β) (d : β)
    (h : q ∈ keysOf m) : lookupD (updateKey m q f) q d = f (lookupD m q d) := by
  induction m with
  | nil => simp at h
  | cons p rest ih =>
      obtain ⟨k', v⟩ := p
      simp only [updateKey]
      by_cases hk : k' = q
      · subst hk
        rw [if_pos rfl]
        simp [lookupD]
      · rw [if_neg hk]
        simp only [lookupD]
        rw [if_neg hk, if_neg hk]
        have h' : q ∈ keysOf rest := by
          rcases (List.mem_cons.mp (by simpa using h)) with h1 | h1
          · exact absurd h1.symm hk
          · exact h1
        exact ih h'

theorem lookupD_append {β : Type} (m m' : AList β) (q : String) (d : β) :
    lookupD (m ++ m') q d = if q ∈ keysOf m then lookupD m q d else lookupD m' q d := by
  induction m with
  | nil => simp [lookupD]
  | cons p rest ih =>
      obtain ⟨k', v⟩ := p
      simp only [List.cons_append, lookupD, List.append_eq]
      by_cases hk : k' = q
      · subst hk
        simp
      · rw [if_neg hk, ih]
        have hmem : (q ∈ keysOf ((k', v) :: rest)) ↔ (q ∈ keysOf rest) := by
          simp [Ne.symm hk]
        by_cases hq : q ∈ keysOf rest
        · rw [if_pos hq, if_pos (hmem.mpr hq), if_neg hk]
        · rw [if_neg hq, if_neg (fun hh => hq (hmem.mp hh))]

theorem lookupD_ensureKey_ne {β : Type} (m : AList β) (k q : String) (dflt d : β)
    (h : k ≠ q) : lookupD (ensureKey m k dflt) q d = lookupD m q d := by
  unfold ensureKey
  by_cases hk : hasKey m k
  · rw [if_pos hk]
  · rw [if_neg hk, lookupD_append]
    by_cases hq : q ∈ keysOf m
    · rw [if_pos hq]
    · rw [if_neg hq, lookupD_of_not_mem hq]
      simp [lookupD, h]

theorem lookupD_modEntry_ne {β : Type} (m : AList β) (k q : String) (dflt : β) (f : β → β)
    (d : β) (h : k ≠ q) : lookupD (modEntry m k dflt f) q d = lookupD m q d := by
  rw [modEntry, lookupD_updateKey_ne _ _ _ _ _ h, lookupD_ensureKey_ne _ _ _ _ _ h]

theorem lookupD_ensureKey_self {β : Type} (m : AList β) (q : String) (dflt : β) :
    lookupD (ensureKey m q dflt) q dflt = lookupD m q dflt := by
  unfold ensureKey
  by_cases hk : hasKey m q
  · rw [if_pos hk]
  · rw [if_neg hk]
    have hq : q ∉ keysOf m := fun h => hk ((hasKey_iff m q).mpr h)
    rw [lookupD_append, if_neg hq, lookupD_of_not_mem hq]
    simp [lookupD]

theorem mem_keysOf_ensureKey_self {β : Type} (m : AList β) (q : String) (dflt : β) :
    q ∈ keysOf (ensureKey m q dflt) := by
  rw [keysOf_ensureKey]
  by_cases h : q ∈ keysOf m <;> simp [h]

theorem lookupD_modEntry_self {β : Type} (m : AList β) (q : String) (dflt : β) (f : β → β) :
    lookupD (modEntry m q dflt f) q dflt = f (lookupD m q dflt) := by
  rw [modEntry, lookupD_updateKey_self _ _ _ _ (mem_keysOf_ensureKey_self m q dflt),
    lookupD_ensureKey_self]

theorem lookupD_addEntry_self {β : Type} (m : AList (List β)) (q : String) (a : β) :
    lookupD (addEntry m q a) q [] = lookupD m q [] ++ [a] :=
  lookupD_modEntry_self m q [] (fun l => l ++ [a])

theorem lookupD_addEntry_ne {β : Type} (m : AList (List β)) (k q : String) (a : β)
    (h : k ≠ q) : lookupD (addEntry m k a) q [] = lookupD m q [] :=
  lookupD_modEntry_ne m k q [] _ [] h

theorem lookupD_extendEntry_self {β : Type} (m : AList (List β)) (q : String) (occs : List β) :
    lookupD (extendEntry m q occs) q [] = lookupD m q [] ++ occs :=
  lookupD_modEntry_self m q [] (fun l => l ++ occs)

theorem lookupD_extendEntry_ne {β : Type} (m : AList (List β)) (k q : String) (occs : List β)
    (h : k ≠ q) : lookupD (extendEntry m k occs) q [] = lookupD m q [] :=
  lookupD_modEntry_ne m k q [] _ [] h

/-!
Merge/Reduce engine: `_merge_results` in
`src/library_analyzer/commands/improve/_call_and_parameter_counter.py`
(lines 119-210).  A per-file artifact holds three maps (`calls`,
`parameters`, `values`); the result stores start out seeded from the
public-API skeleton (seeding is performed by the external `get_public_api`
collaborator, so the seeded stores are parameters here).  Each for-loop of
the source is written as a recursion on the artifact entries.
-/

/-- Occurrence: the `(file, line, column)` triple recorded at a call site
(type alias `Occurrence` in the source). -/
abbrev Occurrence : Type := String × Option Nat × Option Nat

/-- `CallStore = dict[CallableName, list[Occurrence]]`. -/
abbrev CallStore : Type := AList (List Occurrence)

instance : DecidableEq CallStore := List.hasDecEq

/-- `ParameterStore = dict[CallableName, dict[ParameterName, list[Occurrence]]]`. -/
abbrev ParameterStore : Type := AList (AList (List Occurrence))

instance : DecidableEq ParameterStore := List.hasDecEq

/-- Shape of the `values` map inside a per-file artifact:
`dict[CallableName, dict[ParameterName, dict[StringifiedValue, list[Occurrence]]]]`. -/
abbrev FileValueStore : Type := AList (AList (AList (List Occurrence)))

instance : DecidableEq FileValueStore := List.hasDecEq

/-- Per-parameter record of the merged `values` store:
`\x7b"defaultValue": ..., "values": \x7b...\x7d\x7d`. -/
structure ParamValueData where
  defaultValue : Option String
  values : AList (List Occurrence)
deriving DecidableEq, Repr

/-- Shape of the merged `values` store. -/
abbrev ResultValueStore : Type := AList (AList ParamValueData)

/-- Parsed content of one per-file artifact (`content` in `_merge_results`). -/
structure FileContent where
  calls : CallStore
  parameters : ParameterStore
  values : FileValueStore
deriving DecidableEq, Repr

/-- The three result stores threaded through `_merge_results`. -/
structure MergedResult where
  result_calls : CallStore
  result_parameters : ParameterStore
  result_values : ResultValueStore
deriving DecidableEq, Repr

/-- The `merge calls` loop: a qualified name absent from the seeded store is
skipped (`continue`, "not part of the public API"), otherwise the artifact's
occurrences are appended (`extend`). -/
def merge_calls_file (result_calls : CallStore) : CallStore → CallStore
  | [] => result_calls
  | (callable_name, occurrences) :: rest =>
      merge_calls_file
        (if hasKey result_calls callable_name then
          updateKey result_calls callable_name (fun l => l ++ occurrences)
        else result_calls) rest

/-- Inner loop shared by the `merge parameters` and `merge values` loops:
ensure the key exists, then `extend` its occurrence list. -/
def extend_all (m : AList (List Occurrence)) : AList (List Occurrence) → AList (List Occurrence)
  | [] => m
  | (name, occurrences) :: rest => extend_all (extendEntry m name occurrences) rest

/-- The `merge parameters` loop: a missing callable key is created
(`result_parameters[callable_name] = \x7b\x7d`), then each parameter's
occurrences are merged. -/
def merge_parameters_file (result_parameters : ParameterStore) : ParameterStore → ParameterStore
  | [] => result_parameters
  | (callable_name, parameters) :: rest =>
      merge_parameters_file
        (modEntry result_parameters callable_name []
          (fun params => extend_all params parameters)) rest

/-- Loop over one callable's parameters in the `merge values` loop: a missing
parameter key is created with `defaultValue: None`, then each stringified
value's occurrences are merged. -/
def merge_param_values (params : AList ParamValueData) :
    AList (AList (List Occurrence)) → AList ParamValueData
  | [] => params
  | (parameter_name, values) :: rest =>
      merge_param_values
        (modEntry params parameter_name ⟨none, []⟩
          (fun pd => ⟨pd.defaultValue, extend_all pd.values values⟩)) rest

/-- The `merge values` loop. -/
def merge_values_file (result_values : ResultValueStore) : FileValueStore → ResultValueStore
  | [] => result_values
  | (callable_name, parameters) :: rest =>
      merge_values_file
        (modEntry result_values callable_name []
          (fun params => merge_param_values params parameters)) rest

/-- The merging phase of `_merge_results`: fold all artifact files into the
skeleton-seeded result stores, in file-enumeration order. -/
def merge_results (result : MergedResult) : List FileContent → MergedResult
  | [] => result
  | content :: rest =>
      merge_results
        ⟨merge_calls_file result.result_calls content.calls,
         merge_parameters_file result.result_parameters content.parameters,
         merge_values_file result.result_values content.values⟩ rest

/-- Everything one artifact's `calls` map contributes to the key `q`,
in entry order. -/
def calls_contribution (q : String) (call_store : CallStore) : List Occurrence :=
  ((call_store.filter (fun p => p.1 == q)).map Prod.snd).flatten

theorem calls_contribution_nil (q : String) : calls_contribution q [] = [] := rfl

theorem calls_contribution_cons (q : String) (p : String × List Occurrence) (rest : CallStore) :
    calls_contribution q (p :: rest) =
      (if p.1 = q then p.2 else []) ++ calls_contribution q rest := by
  by_cases h : p.1 = q <;> simp [calls_contribution, List.filter_cons, h]

theorem keysOf_merge_calls_file (a : CallStore) (res : CallStore) :
    keysOf (merge_calls_file res a) = keysOf res := by
  induction a generalizing res with
  | nil => rfl
  | cons p rest ih =>
      obtain ⟨cn, occs⟩ := p
      show keysOf (merge_calls_file (if hasKey res cn then _ else res) rest) = keysOf res
      rw [ih]
      by_cases h : hasKey res cn
      · rw [if_pos h, keysOf_updateKey]
      · rw [if_neg h]

theorem lookupD_merge_calls_file (a : CallStore) (res : CallStore) (q : String) :
    lookupD (merge_calls_file res a) q [] =
      lookupD res q [] ++ (if q ∈ keysOf res then calls_contribution q a else []) := by
  induction a generalizing res with
  | nil =>
      show lookupD res q [] = _
      by_cases h : q ∈ keysOf res <;> simp [h, calls_contribution_nil]
  | cons p rest ih =>
      obtain ⟨cn, occs⟩ := p
      show lookupD (merge_calls_file (if hasKey res cn then _ else res) rest) q [] = _
      rw [ih]
      rw [calls_contribution_cons]
      by_cases hmem : q ∈ keysOf res
      · rw [if_pos hmem]
        by_cases hcn : cn = q
        · subst hcn
          have hk : hasKey res cn = true := (hasKey_iff res cn).mpr hmem
          rw [if_pos hk, keysOf_updateKey, if_pos hmem,
            lookupD_updateKey_self res cn _ [] hmem, if_pos rfl, List.append_assoc]
        · have h1 : lookupD (if hasKey res cn then updateKey res cn (fun l => l ++ occs) else res) q [] = lookupD res q [] := by
            by_cases hk : hasKey res cn
            · rw [if_pos hk, lookupD_updateKey_ne res cn q _ [] hcn]
            · rw [if_neg hk]
          have h2 : keysOf (if hasKey res cn then updateKey res cn (fun l => l ++ occs) else res) = keysOf res := by
            by_cases hk : hasKey res cn
            · rw [if_pos hk, keysOf_updateKey]
            · rw [if_neg hk]
          rw [h1, h2, if_pos hmem, if_neg hcn, List.nil_append]
      · rw [if_neg hmem]
        have hk : hasKey res cn = true → cn ≠ q := by
          intro hcn e
          exact hmem (e ▸ (hasKey_iff res cn).mp hcn)
        have h1 : lookupD (if hasKey res cn then updateKey res cn (fun l => l ++ occs) else res) q [] = lookupD res q [] := by
          by_cases hck : hasKey res cn
          · rw [if_pos hck, lookupD_updateKey_ne res cn q _ [] (hk hck)]
          · rw [if_neg hck]
        have h2 : keysOf (if hasKey res cn then updateKey res cn (fun l => l ++ occs) else res) = keysOf res := by
          by_cases hck : hasKey res cn
          · rw [if_pos hck, keysOf_updateKey]
          · rw [if_neg hck]
        rw [h1, h2]
        simp [hmem]

/-- All values an association list carries for key `q`, in entry order. -/
def contributionsOf {α : Type} (q : String) (a : List (String × α)) : List α :=
  (a.filter (fun p => p.1 == q)).map Prod.snd

theorem contributionsOf_nil {α : Type} (q : String) : contributionsOf q ([] : List (String × α)) = [] := rfl

theorem contributionsOf_cons {α : Type} (q : String) (p : String × α) (rest : List (String × α)) :
    contributionsOf q (p :: rest) =
      (if p.1 = q then [p.2] else []) ++ contributionsOf q rest := by
  by_cases h : p.1 = q <;> simp [contributionsOf, List.filter_cons, h]

/-- Common shape of the `merge parameters` / `merge values` loops (and their
inner loops): for each artifact entry, ensure the result key exists with a
default, then merge the entry's payload into it. -/
def mergeMapBy {α β : Type} (dflt : β) (g : β → α → β) (m : AList β) :
    List (String × α) → AList β
  | [] => m
  | (k, x) :: rest => mergeMapBy dflt g (modEntry m k dflt (fun b => g b x)) rest

theorem mem_keysOf_mergeMapBy {α β : Type} (dflt : β) (g : β → α → β)
    (a : List (String × α)) (m : AList β) (q : String) :
    q ∈ keysOf (mergeMapBy dflt g m a) ↔ q ∈ keysOf m ∨ q ∈ keysOf a := by
  induction a generalizing m with
  | nil => simp [mergeMapBy]
  | cons p rest ih =>
      obtain ⟨k, x⟩ := p
      show q ∈ keysOf (mergeMapBy dflt g (modEntry m k dflt _) rest) ↔ _
      rw [ih, mem_keysOf_modEntry]
      simp only [keysOf_cons, List.mem_cons]
      tauto

theorem lookupD_mergeMapBy {α β : Type} (dflt : β) (g : β → α → β)
    (a : List (String × α)) (m : AList β) (q : String) :
    lookupD (mergeMapBy dflt g m a) q dflt =
      List.foldl g (lookupD m q dflt) (contributionsOf q a) := by
  induction a generalizing m with
  | nil => rfl
  | cons p rest ih =>
      obtain ⟨k, x⟩ := p
      show lookupD (mergeMapBy dflt g (modEntry m k dflt _) rest) q dflt = _
      rw [ih, contributionsOf_cons]
      by_cases h : k = q
      · subst h
        rw [lookupD_modEntry_self]
        simp
      · rw [lookupD_modEntry_ne _ _ _ _ _ _ h]
        rw [if_neg h]
        simp

theorem lookupD_foldl_mergeMapBy {γ α β : Type} (dflt : β) (g : β → α → β)
    (proj : γ → List (String × α)) (l : List γ) (m : AList β) (q : String) :
    lookupD (l.foldl (fun acc c => mergeMapBy dflt g acc (proj c)) m) q dflt =
      List.foldl g (lookupD m q dflt) ((l.map (fun c => contributionsOf q (proj c))).flatten) := by
  induction l generalizing m with
  | nil => rfl
  | cons c rest ih =>
      rw [List.foldl_cons, ih, List.map_cons, List.flatten_cons, List.foldl_append,
        lookupD_mergeMapBy]

theorem mem_keysOf_foldl_mergeMapBy {γ α β : Type} (dflt : β) (g : β → α → β)
    (proj : γ → List (String × α)) (l : List γ) (m : AList β) (q : String) :
    q ∈ keysOf (l.foldl (fun acc c => mergeMapBy dflt g acc (proj c)) m) ↔
      q ∈ keysOf m ∨ ∃ c ∈ l, q ∈ keysOf (proj c) := by
  induction l generalizing m with
  | nil => simp
  | cons c rest ih =>
      rw [List.foldl_cons, ih, mem_keysOf_mergeMapBy]
      simp only [List.mem_cons]
      constructor
      · rintro ((h | h) | ⟨c', hc', h⟩)
        · exact Or.inl h
        · exact Or.inr ⟨c, Or.inl rfl, h⟩
        · exact Or.inr ⟨c', Or.inr hc', h⟩
      · rintro (h | ⟨c', (rfl | hc'), h⟩)
        · exact Or.inl (Or.inl h)
        · exact Or.inl (Or.inr h)
        · exact Or.inr ⟨c', hc', h⟩

theorem extend_all_eq_mergeMapBy (ps : AList (List Occurrence)) (m : AList (List Occurrence)) :
    extend_all m ps = mergeMapBy [] (fun l occs => l ++ occs) m ps := by
  induction ps generalizing m with
  | nil => rfl
  | cons p rest ih =>
      obtain ⟨k, occs⟩ := p
      show extend_all (extendEntry m k occs) rest = _
      rw [ih]
      rfl

theorem merge_parameters_file_eq_mergeMapBy (a : ParameterStore) (res : ParameterStore) :
    merge_parameters_file res a =
      mergeMapBy [] (fun params parameters => extend_all params parameters) res a := by
  induction a generalizing res with
  | nil => rfl
  | cons p rest ih =>
      obtain ⟨cn, params⟩ := p
      show merge_parameters_file (modEntry res cn [] _) rest = _
      rw [ih]
      rfl

theorem merge_param_values_eq_mergeMapBy (ps : AList (AList (List Occurrence)))
    (m : AList ParamValueData) :
    merge_param_values m ps =
      mergeMapBy ⟨none, []⟩
        (fun pd values => ⟨pd.defaultValue, extend_all pd.values values⟩) m ps := by
  induction ps generalizing m with
  | nil => rfl
  | cons p rest ih =>
      obtain ⟨pn, values⟩ := p
      show merge_param_values (modEntry m pn ⟨none, []⟩ _) rest = _
      rw [ih]
      rfl

theorem merge_values_file_eq_mergeMapBy (a : FileValueStore) (res : ResultValueStore) :
    merge_values_file res a =
      mergeMapBy [] (fun params parameters => merge_param_values params parameters) res a := by
  induction a generalizing res with
  | nil => rfl
  | cons p rest ih =>
      obtain ⟨cn, parameters⟩ := p
      show merge_values_file (modEntry res cn [] _) rest = _
      rw [ih]
      rfl

theorem result_calls_merge_results (files : List FileContent) (r : MergedResult) :
    (merge_results r files).result_calls =
      files.foldl (fun acc fc => merge_calls_file acc fc.calls) r.result_calls := by
  induction files generalizing r with
  | nil => rfl
  | cons fc rest ih =>
      show (merge_results ⟨_, _, _⟩ rest).result_calls = _
      rw [ih, List.foldl_cons]

theorem result_parameters_merge_results (files : List FileContent) (r : MergedResult) :
    (merge_results r files).result_parameters =
      files.foldl (fun acc fc => merge_parameters_file acc fc.parameters) r.result_parameters := by
  induction files generalizing r with
  | nil => rfl
  | cons fc rest ih =>
      show (merge_results ⟨_, _, _⟩ rest).result_parameters = _
      rw [ih, List.foldl_cons]

theorem result_values_merge_results (files : List FileContent) (r : MergedResult) :
    (merge_results r files).result_values =
      files.foldl (fun acc fc => merge_values_file acc fc.values) r.result_values := by
  induction files generalizing r with
  | nil => rfl
  | cons fc rest ih =>
      show (merge_results ⟨_, _, _⟩ rest).result_values = _
      rw [ih, List.foldl_cons]

theorem keysOf_foldl_merge_calls (l : List FileContent) (res : CallStore) :
    keysOf (l.foldl (fun acc fc => merge_calls_file acc fc.calls) res) = keysOf res := by
  induction l generalizing res with
  | nil => rfl
  | cons fc rest ih => rw [List.foldl_cons, ih, keysOf_merge_calls_file]

theorem lookupD_foldl_merge_calls (l : List FileContent) (res : CallStore) (q : String) :
    lookupD (l.foldl (fun acc fc => merge_calls_file acc fc.calls) res) q [] =
      lookupD res q [] ++
        (if q ∈ keysOf res then (l.map (fun fc => calls_contribution q fc.calls)).flatten else []) := by
  induction l generalizing res with
  | nil => by_cases h : q ∈ keysOf res <;> simp [h]
  | cons fc rest ih =>
      rw [List.foldl_cons, ih, lookupD_merge_calls_file, keysOf_merge_calls_file,
        List.map_cons, List.flatten_cons]
      by_cases h : q ∈ keysOf res
      · rw [if_pos h, if_pos h, if_pos h, List.append_assoc]
      · rw [if_neg h, if_neg h, if_neg h]
        simp

theorem foldl_param_value_data (pd : ParamValueData) (l : List (AList (List Occurrence))) :
    List.foldl (fun pd values => (⟨pd.defaultValue, extend_all pd.values values⟩ : ParamValueData)) pd l =
      ⟨pd.defaultValue, List.foldl (fun vs values => extend_all vs values) pd.values l⟩ := by
  induction l generalizing pd with
  | nil => rfl
  | cons a rest ih => rw [List.foldl_cons, List.foldl_cons, ih]

theorem foldl_append_flatten {α : Type} (v : List α) (l : List (List α)) :
    List.foldl (fun acc x => acc ++ x) v l = v ++ l.flatten := by
  induction l generalizing v with
  | nil => simp
  | cons a rest ih => rw [List.foldl_cons, ih, List.flatten_cons, List.append_assoc]

theorem perm_flatten_of_perm {α : Type} {l₁ l₂ : List (List α)} (h : l₁.Perm l₂) :
    l₁.flatten.Perm l₂.flatten := by
  induction h with
  | nil => exact List.Perm.refl _
  | cons x _ ih =>
      simp only [List.flatten_cons]
      exact ih.append_left x
  | swap x y l =>
      simp only [List.flatten_cons]
      rw [← List.append_assoc, ← List.append_assoc]
      exact (List.perm_append_comm).append_right _
  | trans _ _ ih₁ ih₂ => exact ih₁.trans ih₂

theorem mem_keysOf_parameters_merge_results (files : List FileContent) (r : MergedResult)
    (q : String) :
    q ∈ keysOf (merge_results r files).result_parameters ↔
      q ∈ keysOf r.result_parameters ∨ ∃ fc ∈ files, q ∈ keysOf fc.parameters := by
  rw [result_parameters_merge_results]
  simp only [merge_parameters_file_eq_mergeMapBy]
  rw [mem_keysOf_foldl_mergeMapBy]

theorem mem_keysOf_values_merge_results (files : List FileContent) (r : MergedResult)
    (q : String) :
    q ∈ keysOf (merge_results r files).result_values ↔
      q ∈ keysOf r.result_values ∨ ∃ fc ∈ files, q ∈ keysOf fc.values := by
  rw [result_values_merge_results]
  simp only [merge_values_file_eq_mergeMapBy]
  rw [mem_keysOf_foldl_mergeMapBy]

theorem lookupD_parameters_merge_results (files : List FileContent) (r : MergedResult)
    (q p : String) :
    lookupD (lookupD (merge_results r files).result_parameters q []) p [] =
      lookupD (lookupD r.result_parameters q []) p [] ++
        ((((files.map (fun fc => contributionsOf q fc.parameters)).flatten).map
            (fun c => contributionsOf p c)).flatten).flatten := by
  rw [result_parameters_merge_results]
  simp only [merge_parameters_file_eq_mergeMapBy]
  rw [lookupD_foldl_mergeMapBy]
  simp only [extend_all_eq_mergeMapBy]
  rw [lookupD_foldl_mergeMapBy, foldl_append_flatten]

theorem lookupD_values_merge_results (files : List FileContent) (r : MergedResult)
    (q p sv : String) :
    lookupD (lookupD (lookupD (merge_results r files).result_values q []) p ⟨none, []⟩).values sv [] =
      lookupD (lookupD (lookupD r.result_values q []) p ⟨none, []⟩).values sv [] ++
        ((((((files.map (fun fc => contributionsOf q fc.values)).flatten).map
              (fun c => contributionsOf p c)).flatten).map
              (fun c => contributionsOf sv c)).flatten).flatten := by
  rw [result_values_merge_results]
  simp only [merge_values_file_eq_mergeMapBy]
  rw [lookupD_foldl_mergeMapBy]
  simp only [merge_param_values_eq_mergeMapBy]
  rw [lookupD_foldl_mergeMapBy, foldl_param_value_data]
  show lookupD (List.foldl _ _ _) sv [] = _
  simp only [extend_all_eq_mergeMapBy]
  rw [lookupD_foldl_mergeMapBy, foldl_append_flatten]

/-- Concrete stores for the C1 theorems: a skeleton-seeded result with one
callable `sk.f` carrying one parameter `x`, and two artifacts each
contributing one occurrence of a call to `sk.f` with `x` set. -/
def C1occA : Occurrence := ("a.py", some 3, some 0)

def C1occB : Occurrence := ("b.py", some 7, some 4)

def C1seed : MergedResult :=
  ⟨[("sk.f", [])],
   [("sk.f", [("x", [])])],
   [("sk.f", [("x", ⟨some "8", []⟩)])]⟩

def C1fileA : FileContent :=
  ⟨[("sk.f", [C1occA])],
   [("sk.f", [("x", [C1occA])])],
   [("sk.f", [("x", [("3", [C1occA])])])]⟩

def C1fileB : FileContent :=
  ⟨[("sk.f", [C1occB])],
   [("sk.f", [("x", [C1occB])])],
   [("sk.f", [("x", [("5", [C1occB])])])]⟩

/-- Claim C1, as stated, is false: merging the same two artifacts into the
same skeleton-seeded store in the two possible orders yields different
canonical stores — the per-key occurrence lists are concatenated in
processing order (`[occA, occB]` versus `[occB, occA]`), so the result is
not invariant under permutation of the artifacts. -/
theorem claim_C1_counterexample :
    merge_results C1seed [C1fileA, C1fileB] ≠ merge_results C1seed [C1fileB, C1fileA] := by
  decide

/-- Claim C1 (amended): merging the artifacts in any permutation yields the
same canonical store up to per-key list order, not an identical store: the
calls map has exactly the seeded keys in seed order, and each key's
occurrence list in one order is a permutation (same multiset, same counts)
of that in the other; the parameters and values maps have the same key sets,
and every per-parameter (and per-stringified-value) occurrence list agrees
as a multiset. -/
theorem claim_C1_amended (seed : MergedResult) (files files2 : List FileContent)
    (hp : files.Perm files2) :
    (keysOf (merge_results seed files).result_calls
        = keysOf (merge_results seed files2).result_calls)
    ∧ (∀ q, (lookupD (merge_results seed files).result_calls q []).Perm
          (lookupD (merge_results seed files2).result_calls q []))
    ∧ (∀ q, q ∈ keysOf (merge_results seed files).result_parameters ↔
          q ∈ keysOf (merge_results seed files2).result_parameters)
    ∧ (∀ q p, (lookupD (lookupD (merge_results seed files).result_parameters q []) p []).Perm
          (lookupD (lookupD (merge_results seed files2).result_parameters q []) p []))
    ∧ (∀ q, q ∈ keysOf (merge_results seed files).result_values ↔
          q ∈ keysOf (merge_results seed files2).result_values)
    ∧ (∀ q p sv,
        (lookupD (lookupD (lookupD (merge_results seed files).result_values q []) p ⟨none, []⟩).values sv []).Perm
          (lookupD (lookupD (lookupD (merge_results seed files2).result_values q []) p ⟨none, []⟩).values sv [])) := by
  refine ⟨?_, ?_, ?_, ?_, ?_, ?_⟩
  · rw [result_calls_merge_results, result_calls_merge_results,
      keysOf_foldl_merge_calls, keysOf_foldl_merge_calls]
  · intro q
    rw [result_calls_merge_results, result_calls_merge_results,
      lookupD_foldl_merge_calls, lookupD_foldl_merge_calls]
    refine List.Perm.append_left _ ?_
    by_cases h : q ∈ keysOf seed.result_calls
    · rw [if_pos h, if_pos h]
      exact perm_flatten_of_perm (hp.map _)
    · rw [if_neg h, if_neg h]
  · intro q
    rw [mem_keysOf_parameters_merge_results, mem_keysOf_parameters_merge_results]
    simp only [hp.mem_iff]
  · intro q p
    rw [lookupD_parameters_merge_results, lookupD_parameters_merge_results]
    refine List.Perm.append_left _ ?_
    exact perm_flatten_of_perm
      (perm_flatten_of_perm ((perm_flatten_of_perm (hp.map _)).map _))
  · intro q
    rw [mem_keysOf_values_merge_results, mem_keysOf_values_merge_results]
    simp only [hp.mem_iff]
  · intro q p sv
    rw [lookupD_values_merge_results, lookupD_values_merge_results]
    refine List.Perm.append_left _ ?_
    exact perm_flatten_of_perm (perm_flatten_of_perm
      ((perm_flatten_of_perm ((perm_flatten_of_perm (hp.map _)).map _)).map _))

/-- Witness for claim C1 (amended) at the concrete stores: swapping the two
artifacts keeps the calls keys equal and yields permuted occurrence lists at
the seeded key. -/
theorem claim_C1_witness :
    (keysOf (merge_results C1seed [C1fileA, C1fileB]).result_calls
        = keysOf (merge_results C1seed [C1fileB, C1fileA]).result_calls)
    ∧ (lookupD (merge_results C1seed [C1fileA, C1fileB]).result_calls "sk.f" []).Perm
        (lookupD (merge_results C1seed [C1fileB, C1fileA]).result_calls "sk.f" []) := by
  have h := claim_C1_amended C1seed [C1fileA, C1fileB] [C1fileB, C1fileA] (by decide)
  exact ⟨h.1, h.2.1 "sk.f"⟩

/-- Concrete stores for the C5 theorems: the skeleton seeds only `sk.f`; the
artifact also carries entries for `other.g`, which is not part of the public
surface. -/
def C5occ : Occurrence := ("d.py", some 11, some 8)

def C5seed : MergedResult :=
  ⟨[("sk.f", [])],
   [("sk.f", [("x", [])])],
   [("sk.f", [("x", ⟨some "8", []⟩)])]⟩

def C5file : FileContent :=
  ⟨[("sk.f", [C5occ]), ("other.g", [C5occ])],
   [("sk.f", [("x", [C5occ])]), ("other.g", [("y", [C5occ])])],
   [("sk.f", [("x", [("3", [C5occ])])]), ("other.g", [("y", [("4", [C5occ])])])]⟩

/-- Claim C5, as stated, is false: only the `calls` merge discards entries
whose qualified name was not seeded from the skeleton; the `parameters` and
`values` merges create missing keys on demand, so the non-skeleton qualified
name `other.g` does appear as a key of the canonical parameters and values
stores. -/
theorem claim_C5_counterexample :
    ("other.g" ∉ keysOf C5seed.result_parameters)
    ∧ ("other.g" ∈ keysOf (merge_results C5seed [C5file]).result_parameters)
    ∧ ("other.g" ∉ keysOf C5seed.result_values)
    ∧ ("other.g" ∈ keysOf (merge_results C5seed [C5file]).result_values) := by
  decide

/-- Claim C5 (amended): during merge, only the `calls` map discards
non-skeleton entries — its key set stays exactly the seeded key set, and each
seeded key's list is the seeded list with all artifact occurrences appended
in order. The `parameters` and `values` maps do not discard: a qualified
name is a key of the merged map iff it was seeded or appears in some
artifact's map, so non-skeleton qualified names do appear there. -/
theorem claim_C5_amended (seed : MergedResult) (files : List FileContent) :
    (∀ q, q ∈ keysOf (merge_results seed files).result_calls ↔ q ∈ keysOf seed.result_calls)
    ∧ (∀ q, q ∈ keysOf seed.result_calls →
        lookupD (merge_results seed files).result_calls q [] =
          lookupD seed.result_calls q [] ++
            (files.map (fun fc => calls_contribution q fc.calls)).flatten)
    ∧ (∀ q, q ∈ keysOf (merge_results seed files).result_parameters ↔
        q ∈ keysOf seed.result_parameters ∨ ∃ fc ∈ files, q ∈ keysOf fc.parameters)
    ∧ (∀ q, q ∈ keysOf (merge_results seed files).result_values ↔
        q ∈ keysOf seed.result_values ∨ ∃ fc ∈ files, q ∈ keysOf fc.values) := by
  refine ⟨?_, ?_, ?_, ?_⟩
  · intro q
    rw [result_calls_merge_results, keysOf_foldl_merge_calls]
  · intro q hq
    rw [result_calls_merge_results, lookupD_foldl_merge_calls, if_pos hq]
  · intro q
    exact mem_keysOf_parameters_merge_results files seed q
  · intro q
    exact mem_keysOf_values_merge_results files seed q

/-- Witness for claim C5 (amended): at the concrete stores, the seeded calls
key `sk.f` receives the artifact's occurrences appended to its seeded list. -/
theorem claim_C5_witness :
    lookupD (merge_results C5seed [C5file]).result_calls "sk.f" [] =
      lookupD C5seed.result_calls "sk.f" [] ++
        ([C5file].map (fun fc => calls_contribution "sk.f" fc.calls)).flatten :=
  (claim_C5_amended C5seed [C5file]).2.1 "sk.f" (by decide)

/-!
Per-file Usage Scanner: `_CallAndParameterCounter.visit_call` and
`_bound_parameters` in
`src/library_analyzer/commands/improve/_call_and_parameter_counter.py`
(lines 520-563 and 618-637).  The semantic resolver
(`_analyze_declaration_called_by`, built on astroid's `safe_infer`) is the
external collaborator, so a scanner event carries its output: `none`, or the
resolved declaration's qualified name, formal parameter list and number of
implicit parameters, together with the astroid `CallSite` of the call
expression and the call node's location.  Argument value nodes are carried
as their canonical textual rendering (`NodeNG.as_string()`), which makes
`_stringify_value` the identity on them.
-/

/-- Fields of the resolved declaration's `astroid.Arguments` that
`_bound_parameters` reads; `args = none` encodes a declaration with no
explicit parameter list (`parameters.args is None`). -/
structure Arguments where
  posonlyargs : List String
  args : Option (List String)
deriving DecidableEq, Repr

/-- Fields of the `astroid.arguments.CallSite` that `_bound_parameters`
reads.  `invalid_arguments` / `invalid_keywords` are the results of
`has_invalid_arguments()` / `has_invalid_keywords()`: they flag starred
arguments or keywords whose unpacking could not be inferred — they do not
compare the call against the declaration's arity or parameter names. -/
structure CallSite where
  keyword_arguments : AList String
  positional_arguments : List String
  invalid_arguments : Bool
  invalid_keywords : Bool
deriving DecidableEq, Repr

/-- Python `d[k] = v` on a dict: overwrite in place, or append a new key. -/
def dictSet {β : Type} (m : AList β) (k : String) (v : β) : AList β :=
  if hasKey m k then updateKey m k (fun _ => v) else m ++ [(k, v)]

/-- `_bound_parameters`: `None` for an improper call (no explicit parameter
list, or invalid argument/keyword unpacking); otherwise the keyword
arguments copied as-is, with each positional argument assigned to the
positional parameter name of the same index — the loop `break`s once the
positional parameter names run out, silently dropping excess positionals. -/
def bound_parameters (parameters : Arguments) (arguments : CallSite)
    (n_implicit_parameters : Nat) : Option (AList String) :=
  match parameters.args with
  | none => none
  | some args =>
    if arguments.invalid_arguments || arguments.invalid_keywords then none
    else
      let positional_parameter_names := (parameters.posonlyargs ++ args).drop n_implicit_parameters
      some ((positional_parameter_names.zip arguments.positional_arguments).foldl
        (fun result pr => dictSet result pr.1 pr.2) arguments.keyword_arguments)

/-- One call expression seen by the scanner: the external resolver's output
for `_analyze_declaration_called_by` (`none` when resolution failed, the
target is outside the relevant namespace, a lambda, or a class without a
usable constructor), the call site, and the node's
`(file, lineno, col_offset)` occurrence. -/
structure CallEvent where
  called : Option (String × Arguments × Nat)
  call_site : CallSite
  occurrence : Occurrence
deriving DecidableEq, Repr

/-- Mutable state of a `_CallAndParameterCounter` instance. -/
structure ScanState where
  calls : CallStore
  parameters : ParameterStore
  values : FileValueStore
deriving DecidableEq, Repr

/-- `_stringify_value` returns `value.as_string()`; events already carry the
rendering, so this is the identity on it. -/
def stringify_value (value : String) : String := value

/-- `visit_call`: discard when the resolver returned nothing or the call
shape is improper; otherwise append the occurrence to the calls list of the
qualified name, to each bound parameter's list, and to each bound
(parameter, stringified value) list. -/
def visit_call (st : ScanState) (e : CallEvent) : ScanState :=
  match e.called with
  | none => st
  | some (qualified_name, parameters, n_implicit_parameters) =>
    match bound_parameters parameters e.call_site n_implicit_parameters with
    | none => st
    | some bound =>
      let occurrence := e.occurrence
      let calls := addEntry st.calls qualified_name occurrence
      let parameters1 := modEntry st.parameters qualified_name []
        (fun inner => bound.foldl (fun inner pr => addEntry inner pr.1 occurrence) inner)
      let values := modEntry st.values qualified_name []
        (fun inner => bound.foldl
          (fun inner pr => modEntry inner pr.1 []
            (fun svm => addEntry svm (stringify_value pr.2) occurrence)) inner)
      ⟨calls, parameters1, values⟩

/-- Scanning one file is folding `visit_call` over its call events from an
empty state. -/
def run_scanner (events : List CallEvent) : ScanState :=
  events.foldl visit_call ⟨[], [], []⟩

/-- Concrete inputs for the C4 theorems: a declaration `sk.f(a)` called with
two positional arguments (excess), and a declaration `sk.g(a)` called with
the unknown keyword `zzz`. -/
def C4params : Arguments := ⟨[], some ["a"]⟩

def C4site_excess : CallSite := ⟨[], ["1", "2"], false, false⟩

def C4site_unknown : CallSite := ⟨[("zzz", "7")], [], false, false⟩

def C4occ : Occurrence := ("c.py", some 2, some 0)

def C4event : CallEvent := ⟨some ("sk.f", C4params, 0), C4site_excess, C4occ⟩

/-- Claim C4, as stated, is false: a call with excess positional arguments
is not discarded — the in-range positionals are bound and the call is
recorded (a call occurrence and a parameter occurrence both appear), and a
call with an unknown keyword name binds that keyword as-is. -/
theorem claim_C4_counterexample :
    (bound_parameters C4params C4site_excess 0 = some [("a", "1")])
    ∧ (visit_call ⟨[], [], []⟩ C4event ≠ ⟨[], [], []⟩)
    ∧ (lookupD (visit_call ⟨[], [], []⟩ C4event).calls "sk.f" [] = [C4occ])
    ∧ (lookupD (lookupD (visit_call ⟨[], [], []⟩ C4event).parameters "sk.f" []) "a" [] = [C4occ])
    ∧ (bound_parameters ⟨[], some ["a"]⟩ C4site_unknown 0 = some [("zzz", "7")]) := by
  decide

/-- Claim C4 (amended): a scanned call is discarded in its entirety only
when the resolved declaration has no explicit parameter list or the call
site's argument/keyword unpacking is invalid.  No arity or keyword-name
check exists: whenever a parameter list is present and the unpacking is
valid, the call is recorded — its occurrence is appended to the calls list —
even with excess positional arguments (truncated) or unknown keyword names
(bound under the given name). -/
theorem claim_C4_amended (st : ScanState) (q : String) (params : Arguments) (n : Nat)
    (cs : CallSite) (occ : Occurrence) :
    (params.args = none → visit_call st ⟨some (q, params, n), cs, occ⟩ = st)
    ∧ (cs.invalid_arguments = true ∨ cs.invalid_keywords = true →
        visit_call st ⟨some (q, params, n), cs, occ⟩ = st)
    ∧ (∀ args, params.args = some args →
        cs.invalid_arguments = false → cs.invalid_keywords = false →
        lookupD (visit_call st ⟨some (q, params, n), cs, occ⟩).calls q [] =
          lookupD st.calls q [] ++ [occ]) := by
  refine ⟨?_, ?_, ?_⟩
  · intro h
    simp [visit_call, bound_parameters, h]
  · intro h
    cases hA : params.args with
    | none => simp [visit_call, bound_parameters, hA]
    | some args =>
        rcases h with h | h <;> simp [visit_call, bound_parameters, hA, h]
  · intro args hA h1 h2
    simp only [visit_call, bound_parameters, hA, h1, h2, Bool.or_self, Bool.false_eq_true,
      if_false]
    exact lookupD_addEntry_self st.calls q occ

/-- Witness for claim C4 (amended): the excess-positional call to `sk.f`
still appends its occurrence to the calls list. -/
theorem claim_C4_witness :
    lookupD (visit_call ⟨[], [], []⟩ ⟨some ("sk.f", C4params, 0), C4site_excess, C4occ⟩).calls
        "sk.f" [] =
      lookupD (⟨[], [], []⟩ : ScanState).calls "sk.f" [] ++ [C4occ] :=
  (claim_C4_amended ⟨[], [], []⟩ "sk.f" C4params 0 C4site_excess C4occ).2.2 ["a"] rfl rfl rfl

theorem keysOf_nodup_dictSet {β : Type} (m : AList β) (k : String) (v : β)
    (h : (keysOf m).Nodup) : (keysOf (dictSet m k v)).Nodup := by
  unfold dictSet
  by_cases hk : hasKey m k
  · rw [if_pos hk, keysOf_updateKey]
    exact h
  · rw [if_neg hk, keysOf_append]
    have hmem : k ∉ keysOf m := fun hm => hk ((hasKey_iff m k).mpr hm)
    refine List.Nodup.append h (List.nodup_singleton k) ?_
    intro a ha hb
    simp only [keysOf_cons, keysOf_nil, List.mem_singleton] at hb
    exact hmem (hb ▸ ha)

theorem nodup_keys_foldl_dictSet (pairs : List (String × String)) (m : AList String)
    (h : (keysOf m).Nodup) :
    (keysOf (pairs.foldl (fun r pr => dictSet r pr.1 pr.2) m)).Nodup := by
  induction pairs generalizing m with
  | nil => exact h
  | cons pr rest ih =>
      rw [List.foldl_cons]
      exact ih _ (keysOf_nodup_dictSet m pr.1 pr.2 h)

theorem bound_parameters_nodup (parameters : Arguments) (cs : CallSite) (n : Nat)
    (bound : AList String) (hkw : (keysOf cs.keyword_arguments).Nodup)
    (hb : bound_parameters parameters cs n = some bound) : (keysOf bound).Nodup := by
  cases hA : parameters.args with
  | none => simp [bound_parameters, hA] at hb
  | some args =>
      simp only [bound_parameters, hA] at hb
      by_cases hI : (cs.invalid_arguments || cs.invalid_keywords) = true
      · simp [hI] at hb
      · rw [Bool.not_eq_true] at hI
        simp only [hI, Bool.false_eq_true, if_false, Option.some.injEq] at hb
        subst hb
        exact nodup_keys_foldl_dictSet _ _ hkw

theorem lookupD_foldl_addEntry_bound (bound : AList String)
    (inner : AList (List Occurrence)) (occ : Occurrence) (p : String)
    (h : (keysOf bound).Nodup) :
    lookupD (bound.foldl (fun inner pr => addEntry inner pr.1 occ) inner) p [] =
      lookupD inner p [] ++ (if p ∈ keysOf bound then [occ] else []) := by
  induction bound generalizing inner with
  | nil => simp
  | cons pr rest ih =>
      obtain ⟨pn, pv⟩ := pr
      rw [List.foldl_cons]
      have hcons := List.nodup_cons.mp (by simpa using h)
      rw [ih _ hcons.2]
      by_cases hp : pn = p
      · subst hp
        rw [lookupD_addEntry_self, if_neg hcons.1,
          if_pos (show pn ∈ keysOf ((pn, pv) :: rest) by simp)]
        simp
      · rw [lookupD_addEntry_ne _ _ _ _ hp]
        have hmem : (p ∈ keysOf ((pn, pv) :: rest)) ↔ p ∈ keysOf rest := by
          simp [Ne.symm hp]
        by_cases hm : p ∈ keysOf rest
        · rw [if_pos hm, if_pos (hmem.mpr hm)]
        · rw [if_neg hm, if_neg (fun hh => hm (hmem.mp hh))]

theorem mem_values_foldl_bound (bound : AList String)
    (inner : AList (AList (List Occurrence))) (occ : Occurrence) (p sv : String)
    (x : Occurrence)
    (hx : x ∈ lookupD (lookupD
        (bound.foldl (fun inner pr => modEntry inner pr.1 []
          (fun svm => addEntry svm (stringify_value pr.2) occ)) inner) p []) sv []) :
    x ∈ lookupD (lookupD inner p []) sv [] ∨ x = occ := by
  induction bound generalizing inner with
  | nil => exact Or.inl hx
  | cons pr rest ih =>
      obtain ⟨pn, pv⟩ := pr
      rw [List.foldl_cons] at hx
      rcases ih _ hx with h | h
      · by_cases hp : pn = p
        · subst hp
          rw [lookupD_modEntry_self] at h
          by_cases hsv : stringify_value pv = sv
          · rw [hsv, lookupD_addEntry_self] at h
            rcases List.mem_append.mp h with h1 | h1
            · exact Or.inl h1
            · exact Or.inr (List.mem_singleton.mp h1)
          · rw [lookupD_addEntry_ne _ _ _ _ hsv] at h
            exact Or.inl h
        · rw [lookupD_modEntry_ne _ _ _ _ _ _ hp] at h
          exact Or.inl h
      · exact Or.inr h

/-- Invariant of the scanner state relating each map to the calls list. -/
def scan_invariant (st : ScanState) : Prop :=
  (∀ q p occ, occ ∈ lookupD (lookupD st.parameters q []) p [] →
      occ ∈ lookupD st.calls q [])
  ∧ (∀ q p sv occ, occ ∈ lookupD (lookupD (lookupD st.values q []) p []) sv [] →
      occ ∈ lookupD st.calls q [])
  ∧ (∀ q p, (lookupD (lookupD st.parameters q []) p []).length ≤
      (lookupD st.calls q []).length)

theorem visit_call_invariant (st : ScanState) (e : CallEvent)
    (hkw : (keysOf e.call_site.keyword_arguments).Nodup)
    (h : scan_invariant st) : scan_invariant (visit_call st e) := by
  obtain ⟨h1, h2, h3⟩ := h
  cases hc : e.called with
  | none =>
      simp only [visit_call, hc]
      exact ⟨h1, h2, h3⟩
  | some trip =>
      obtain ⟨q0, params, n⟩ := trip
      cases hb : bound_parameters params e.call_site n with
      | none =>
          simp only [visit_call, hc, hb]
          exact ⟨h1, h2, h3⟩
      | some bound =>
          have hnd : (keysOf bound).Nodup :=
            bound_parameters_nodup params e.call_site n bound hkw hb
          simp only [visit_call, hc, hb]
          refine ⟨?_, ?_, ?_⟩
          · intro q p x hx
            simp only at hx ⊢
            by_cases hq : q0 = q
            · subst hq
              rw [lookupD_modEntry_self,
                lookupD_foldl_addEntry_bound _ _ _ _ hnd] at hx
              rw [lookupD_addEntry_self]
              rcases List.mem_append.mp hx with hx1 | hx1
              · exact List.mem_append_left _ (h1 _ _ _ hx1)
              · by_cases hm : p ∈ keysOf bound
                · rw [if_pos hm, List.mem_singleton] at hx1
                  exact List.mem_append_right _ (by simp [hx1])
                · rw [if_neg hm] at hx1
                  exact absurd hx1 (List.not_mem_nil x)
            · rw [lookupD_modEntry_ne _ _ _ _ _ _ hq] at hx
              rw [lookupD_addEntry_ne _ _ _ _ hq]
              exact h1 _ _ _ hx
          · intro q p sv x hx
            simp only at hx ⊢
            by_cases hq : q0 = q
            · subst hq
              rw [lookupD_modEntry_self] at hx
              rw [lookupD_addEntry_self]
              rcases mem_values_foldl_bound bound _ _ p sv x hx with hx1 | hx1
              · exact List.mem_append_left _ (h2 _ _ _ _ hx1)
              · exact List.mem_append_right _ (by simp [hx1])
            · rw [lookupD_modEntry_ne _ _ _ _ _ _ hq] at hx
              rw [lookupD_addEntry_ne _ _ _ _ hq]
              exact h2 _ _ _ _ hx
          · intro q p
            simp only
            by_cases hq : q0 = q
            · subst hq
              rw [lookupD_modEntry_self,
                lookupD_foldl_addEntry_bound _ _ _ _ hnd, lookupD_addEntry_self,
                List.length_append, List.length_append]
              have hle := h3 q0 p
              by_cases hm : p ∈ keysOf bound
              · rw [if_pos hm]
                simp only [List.length_singleton]
                omega
              · rw [if_neg hm]
                simp only [List.length_nil]
                omega
            · rw [lookupD_modEntry_ne _ _ _ _ _ _ hq, lookupD_addEntry_ne _ _ _ _ hq]
              exact h3 q p

theorem foldl_visit_call_invariant (es : List CallEvent) (st : ScanState)
    (hkw : ∀ e ∈ es, (keysOf e.call_site.keyword_arguments).Nodup)
    (h : scan_invariant st) : scan_invariant (es.foldl visit_call st) := by
  induction es generalizing st with
  | nil => exact h
  | cons e rest ih =>
      rw [List.foldl_cons]
      exact ih _ (fun e' he' => hkw e' (List.mem_cons_of_mem _ he'))
        (visit_call_invariant st e (hkw e (List.mem_cons_self _ _)) h)

/-- Claim C10: in every partial result produced by the per-file scanner (any
event sequence whose keyword-argument dicts have distinct keys, as Python
dicts do), every occurrence recorded under a qualified name in the
parameters map, and every occurrence recorded under it in the values map, is
an element of that qualified name's calls list, and no parameter's
occurrence count exceeds its function's call count — each accepted call
appends the same occurrence to the calls list and to each bound parameter's
and value's list. -/
theorem claim_C10 (events : List CallEvent)
    (hkw : ∀ e ∈ events, (keysOf e.call_site.keyword_arguments).Nodup) :
    (∀ q p occ, occ ∈ lookupD (lookupD (run_scanner events).parameters q []) p [] →
        occ ∈ lookupD (run_scanner events).calls q [])
    ∧ (∀ q p sv occ,
        occ ∈ lookupD (lookupD (lookupD (run_scanner events).values q []) p []) sv [] →
          occ ∈ lookupD (run_scanner events).calls q [])
    ∧ (∀ q p, (lookupD (lookupD (run_scanner events).parameters q []) p []).length ≤
        (lookupD (run_scanner events).calls q []).length) := by
  have h0 : scan_invariant ⟨[], [], []⟩ := by
    refine ⟨?_, ?_, ?_⟩
    · intro q p occ hx
      simp [lookupD] at hx
    · intro q p sv occ hx
      simp [lookupD] at hx
    · intro q p
      simp [lookupD]
  exact foldl_visit_call_invariant events ⟨[], [], []⟩ hkw h0

/-- Concrete event for the C10 witness: `sk.f(a, b)` called as
`sk.f("1", b="2")`. -/
def C10event : CallEvent :=
  ⟨some ("sk.f", ⟨[], some ["a", "b"]⟩, 0), ⟨[("b", "2")], ["1"], false, false⟩,
   ("w.py", some 5, some 2)⟩

/-- Witness for claim C10 at the concrete event: the parameter occurrence of
`a` is also in the calls list of `sk.f`. -/
theorem claim_C10_witness :
    (("w.py", some 5, some 2) : Occurrence) ∈ lookupD (run_scanner [C10event]).calls "sk.f" [] :=
  (claim_C10 [C10event] (by decide)).1 "sk.f" "a" _ (by decide)

/-!
Worker / Orchestrator: `_do_count_calls_and_parameters` in
`src/library_analyzer/commands/improve/_call_and_parameter_counter.py`
(lines 80-116).  File I/O and astroid parsing are external; what the
function itself decides is which branch runs for an input file: a relevant
file that parses is scanned and exactly one artifact is written under a name
mangled from the file path; an irrelevant file
(`_is_relevant_python_file` false, "Skipping ... (irrelevant file)"), or a
file hitting one of the three recoverable errors (`UnicodeError`,
`AstroidSyntaxError`, `RecursionError`), writes no artifact at all.  In
every one of these cases the file is appended to the exclude list under the
lock.  A job is a file together with its branch outcome.
-/

/-- Which branch of `_do_count_calls_and_parameters` runs for a file. -/
inductive ScanOutcome where
  | scanned (counter : ScanState)
  | irrelevant
  | bad_encoding
  | unparsable
  | runaway_recursion
deriving DecidableEq, Repr

/-- The artifact file name: the input path with separators mangled to `$$$`
and `.py` replaced by `.json`. -/
def artifact_name (python_file : String) : String :=
  ((python_file.replace "/" "$$$").replace "\\" "$$$").replace ".py" ".json"

/-- The durable effect of `_do_count_calls_and_parameters` on the artifact
directory: the artifact written for the file, or nothing. -/
def do_count_calls_and_parameters (python_file : String) (outcome : ScanOutcome) :
    Option (String × ScanState) :=
  match outcome with
  | .scanned counter => some (artifact_name python_file, counter)
  | _ => none

/-- Whether the branch writes an artifact. -/
def writes_artifact : ScanOutcome → Bool
  | .scanned _ => true
  | _ => false

/-- Processing a batch of files: the artifacts written and the exclude-list
appends (every processed file is appended, artifact or not). -/
def run_workers (jobs : List (String × ScanOutcome)) :
    List (String × ScanState) × List String :=
  (jobs.filterMap (fun j => do_count_calls_and_parameters j.1 j.2), jobs.map Prod.fst)

theorem length_artifacts (jobs : List (String × ScanOutcome)) :
    (jobs.filterMap (fun j => do_count_calls_and_parameters j.1 j.2)).length =
      (jobs.filter (fun j => writes_artifact j.2)).length := by
  induction jobs with
  | nil => rfl
  | cons j rest ih =>
      obtain ⟨f, oc⟩ := j
      cases oc <;>
        simp only [List.filterMap_cons, List.filter_cons, do_count_calls_and_parameters,
          writes_artifact] at ih ⊢ <;>
        simp [ih]

/-- Claim C7, as stated, is false: an irrelevant input file (here, one whose
source does not mention a relevant package) is dispatched to a worker,
appended to the exclude list, but no artifact is written for it — so after
processing one file there are zero artifacts, not one. -/
theorem claim_C7_counterexample :
    ((run_workers [("a.py", ScanOutcome.irrelevant)]).2.length = 1)
    ∧ ((run_workers [("a.py", ScanOutcome.irrelevant)]).1.length = 0) := by
  decide

/-- Claim C7 (amended): a worker writes at most one artifact per input file:
exactly one, named deterministically by mangling the file's path, when the
file is relevant and parses; none when the file is irrelevant or hits a
recoverable per-file error.  Every processed file is appended to the exclude
list, so after N files are processed the exclude list has N entries while
the number of artifacts equals the number of relevant, successfully scanned
files among them. -/
theorem claim_C7_amended (jobs : List (String × ScanOutcome)) :
    ((run_workers jobs).2 = jobs.map Prod.fst)
    ∧ ((run_workers jobs).1.length = (jobs.filter (fun j => writes_artifact j.2)).length)
    ∧ (∀ j ∈ jobs, ∀ counter, j.2 = ScanOutcome.scanned counter →
        (artifact_name j.1, counter) ∈ (run_workers jobs).1) := by
  refine ⟨rfl, length_artifacts jobs, ?_⟩
  intro j hj counter hc
  refine List.mem_filterMap.mpr ⟨j, hj, ?_⟩
  rw [hc]
  rfl

/-- Concrete batch for the C7 witness: one scanned file and one irrelevant
file. -/
def C7jobs : List (String × ScanOutcome) :=
  [("a.py", ScanOutcome.scanned ⟨[], [], []⟩), ("b.py", ScanOutcome.irrelevant)]

/-- Witness for claim C7 (amended) at the concrete batch: both files are
excluded, and the scanned file's artifact is present under its mangled
name. -/
theorem claim_C7_witness :
    ((run_workers C7jobs).2 = C7jobs.map Prod.fst)
    ∧ ((artifact_name "a.py", (⟨[], [], []⟩ : ScanState)) ∈ (run_workers C7jobs).1) := by
  have h := claim_C7_amended C7jobs
  exact ⟨h.1, h.2.2 ("a.py", ScanOutcome.scanned ⟨[], [], []⟩) (by decide) _ rfl⟩

/-!
Usage Store model: `src/library_analyzer/commands/find_usages/_model.py`.
JSON values are modelled structurally, so `Location.from_json` and
`Location.to_json` are mutually inverse by construction and a location JSON
record is represented by the `Location` itself.

On equality of `Location`: the `Location` class in this `_model.py` defines
no `__eq__`, but the model module that `_suggest_improvements.py` actually
consumes is not part of this source tree — it imports `Usage` from
`find_usages` and calls `init_class`, `remove_class`, `n_class_usages` (and
friends), none of which exist in `_model.py`, and its set operations over
locations require value equality.  Those missing parts are modelled from the
spec; per the spec, a Location is an immutable value equal by fields, which
is exactly the equality of this structure.
-/

/-- Location: `(file, line, column)`.  Modelled from the spec where equality
is concerned: an immutable value; equality by fields. -/
structure Location where
  file : String
  line : Option Nat
  column : Option Nat
deriving DecidableEq, Repr

structure ClassUsage where
  qname : String
  location : Location
deriving DecidableEq, Repr

structure FunctionUsage where
  qname : String
  location : Location
deriving DecidableEq, Repr

structure ParameterUsage where
  qname : String
  location : Location
deriving DecidableEq, Repr

structure ValueUsage where
  parameter_qname : String
  value : String
  location : Location
deriving DecidableEq, Repr

instance : DecidableEq (AList (List ClassUsage)) := List.hasDecEq

instance : DecidableEq (AList (List FunctionUsage)) := List.hasDecEq

instance : DecidableEq (AList (List ParameterUsage)) := List.hasDecEq

instance : DecidableEq (AList (List ValueUsage)) := List.hasDecEq

instance : DecidableEq (AList (AList (List ValueUsage))) := List.hasDecEq

instance : DecidableEq (AList (List Location)) := List.hasDecEq

instance : DecidableEq (AList (AList (List Location))) := List.hasDecEq

/-- The four usage maps of `UsageStore`. -/
structure UsageStore where
  class_usages : AList (List ClassUsage)
  function_usages : AList (List FunctionUsage)
  parameter_usages : AList (List ParameterUsage)
  value_usages : AList (AList (List ValueUsage))
deriving DecidableEq, Repr

/-- `UsageStore.__init__`: all four maps empty. -/
def UsageStore.empty : UsageStore := ⟨[], [], [], []⟩

/-- `add_class_usage`: ensure the key, then append `ClassUsage(qname, location)`. -/
def UsageStore.add_class_usage (s : UsageStore) (qname : String) (location : Location) :
    UsageStore :=
  { s with class_usages := addEntry s.class_usages qname ⟨qname, location⟩ }

/-- `add_function_usage`. -/
def UsageStore.add_function_usage (s : UsageStore) (qname : String) (location : Location) :
    UsageStore :=
  { s with function_usages := addEntry s.function_usages qname ⟨qname, location⟩ }

/-- `add_parameter_usage`. -/
def UsageStore.add_parameter_usage (s : UsageStore) (qname : String) (location : Location) :
    UsageStore :=
  { s with parameter_usages := addEntry s.parameter_usages qname ⟨qname, location⟩ }

/-- `add_value_usage`: ensure the outer parameter key, then ensure the value
key, then append `ValueUsage(parameter_qname, value, location)`. -/
def UsageStore.add_value_usage (s : UsageStore) (parameter_qname : String) (value : String)
    (location : Location) : UsageStore :=
  { s with value_usages := (modEntry s.value_usages parameter_qname [] (fun inner => addEntry inner value ⟨parameter_qname, value, location⟩)) }

/-- The JSON shape produced by `UsageStore.to_json`: only locations survive
(each usage's own qname fields are dropped). -/
structure UsageStoreJson where
  class_usages : AList (List Location)
  function_usages : AList (List Location)
  parameter_usages : AList (List Location)
  value_usages : AList (AList (List Location))
deriving DecidableEq, Repr

/-- `UsageStore.to_json`. -/
def UsageStore.to_json (s : UsageStore) : UsageStoreJson :=
  ⟨s.class_usages.map (fun p => (p.1, p.2.map (fun u => u.location))),
   s.function_usages.map (fun p => (p.1, p.2.map (fun u => u.location))),
   s.parameter_usages.map (fun p => (p.1, p.2.map (fun u => u.location))),
   s.value_usages.map (fun p =>
     (p.1, p.2.map (fun q => (q.1, q.2.map (fun u => u.location)))))⟩

/-- The `for location in locations: result.add_class_usage(qname, ...)` loop. -/
def add_class_usages_at (result : UsageStore) (qname : String) : List Location → UsageStore
  | [] => result
  | location :: rest => add_class_usages_at (result.add_class_usage qname location) qname rest

/-- The `for qname, locations in class_usages.items()` loop of `from_json`. -/
def revive_class_usages (result : UsageStore) : AList (List Location) → UsageStore
  | [] => result
  | (qname, locations) :: rest =>
      revive_class_usages (add_class_usages_at result qname locations) rest

def add_function_usages_at (result : UsageStore) (qname : String) : List Location → UsageStore
  | [] => result
  | location :: rest => add_function_usages_at (result.add_function_usage qname location) qname rest

def revive_function_usages (result : UsageStore) : AList (List Location) → UsageStore
  | [] => result
  | (qname, locations) :: rest =>
      revive_function_usages (add_function_usages_at result qname locations) rest

def add_parameter_usages_at (result : UsageStore) (qname : String) : List Location → UsageStore
  | [] => result
  | location :: rest => add_parameter_usages_at (result.add_parameter_usage qname location) qname rest

def revive_parameter_usages (result : UsageStore) : AList (List Location) → UsageStore
  | [] => result
  | (qname, locations) :: rest =>
      revive_parameter_usages (add_parameter_usages_at result qname locations) rest

def add_value_usages_at (result : UsageStore) (parameter_qname value : String) :
    List Location → UsageStore
  | [] => result
  | location :: rest =>
      add_value_usages_at (result.add_value_usage parameter_qname value location)
        parameter_qname value rest

def revive_values_of (result : UsageStore) (parameter_qname : String) :
    AList (List Location) → UsageStore
  | [] => result
  | (value, locations) :: rest =>
      revive_values_of (add_value_usages_at result parameter_qname value locations)
        parameter_qname rest

def revive_value_usages (result : UsageStore) : AList (AList (List Location)) → UsageStore
  | [] => result
  | (parameter_qname, values) :: rest =>
      revive_value_usages (revive_values_of result parameter_qname values) rest

/-- `UsageStore.from_json`: revive class, function, parameter, then value
usages into a fresh store, in iteration order.  A key whose list (or whose
nested value map) is empty triggers no `add_*` call at all. -/
def UsageStore.from_json (json : UsageStoreJson) : UsageStore :=
  revive_value_usages
    (revive_parameter_usages
      (revive_function_usages
        (revive_class_usages UsageStore.empty json.class_usages)
        json.function_usages)
      json.parameter_usages)
    json.value_usages

/-- `merge_other_into_self`: re-add every usage of the other store into this
one, map by map. -/
def UsageStore.merge_other_into_self (s other_usage_store : UsageStore) : UsageStore :=
  let s := other_usage_store.class_usages.foldl
    (fun s p => p.2.foldl (fun s u => s.add_class_usage u.qname u.location) s) s
  let s := other_usage_store.function_usages.foldl
    (fun s p => p.2.foldl (fun s u => s.add_function_usage u.qname u.location) s) s
  let s := other_usage_store.parameter_usages.foldl
    (fun s p => p.2.foldl (fun s u => s.add_parameter_usage u.qname u.location) s) s
  let s := other_usage_store.value_usages.foldl
    (fun s p => p.2.foldl (fun s q => q.2.foldl
      (fun s u => s.add_value_usage u.parameter_qname u.value u.location) s) s) s
  s

theorem updateKey_append {β : Type} (m m' : AList β) (k : String) (f : β → β) :
    updateKey (m ++ m') k f = updateKey m k f ++ updateKey m' k f := by
  induction m with
  | nil => rfl
  | cons p rest ih =>
      obtain ⟨k', v⟩ := p
      simp only [List.cons_append, updateKey, List.append_eq, ih]

theorem updateKey_not_mem {β : Type} (m : AList β) (k : String) (f : β → β)
    (h : k ∉ keysOf m) : updateKey m k f = m := by
  induction m with
  | nil => rfl
  | cons p rest ih =>
      obtain ⟨k', v⟩ := p
      have hne : k' ≠ k := fun e => h (by simp [e])
      have h' : k ∉ keysOf rest := fun e => h (by simp [e])
      simp only [updateKey, if_neg hne, ih h']

theorem modEntry_not_mem {β : Type} (m : AList β) (k : String) (dflt : β) (f : β → β)
    (h : k ∉ keysOf m) : modEntry m k dflt f = m ++ [(k, f dflt)] := by
  unfold modEntry ensureKey
  rw [if_neg (by rw [hasKey_eq_false h]; simp), updateKey_append, updateKey_not_mem _ _ _ h]
  simp [updateKey]

theorem modEntry_append_last {β : Type} (m : AList β) (k : String) (b : β) (dflt : β)
    (f : β → β) (h : k ∉ keysOf m) :
    modEntry (m ++ [(k, b)]) k dflt f = m ++ [(k, f b)] := by
  unfold modEntry ensureKey
  have hk : hasKey (m ++ [(k, b)]) k = true := (hasKey_iff _ _).mpr (by simp)
  rw [if_pos hk, updateKey_append, updateKey_not_mem _ _ _ h]
  simp [updateKey]

theorem addEntry_not_mem {β : Type} (m : AList (List β)) (k : String) (a : β)
    (h : k ∉ keysOf m) : addEntry m k a = m ++ [(k, [a])] :=
  modEntry_not_mem m k [] (fun l => l ++ [a]) h

theorem addEntry_append_last {β : Type} (m : AList (List β)) (k : String) (us : List β)
    (a : β) (h : k ∉ keysOf m) :
    addEntry (m ++ [(k, us)]) k a = m ++ [(k, us ++ [a])] :=
  modEntry_append_last m k us [] (fun l => l ++ [a]) h

/-- Map-level effect of the `for location in locations: add_*_usage` loops. -/
def add_usages_at_map {μ : Type} (mk : String → Location → μ) (m : AList (List μ))
    (qname : String) : List Location → AList (List μ)
  | [] => m
  | l :: rest => add_usages_at_map mk (addEntry m qname (mk qname l)) qname rest

/-- Map-level effect of one revive loop of `from_json`. -/
def build_usages_map {μ : Type} (mk : String → Location → μ) (m : AList (List μ)) :
    AList (List Location) → AList (List μ)
  | [] => m
  | (qname, locations) :: rest =>
      build_usages_map mk (add_usages_at_map mk m qname locations) rest

theorem add_usages_at_map_append {μ : Type} (mk : String → Location → μ)
    (m : AList (List μ)) (q : String) (us : List μ) (locs : List Location)
    (hq : q ∉ keysOf m) :
    add_usages_at_map mk (m ++ [(q, us)]) q locs = m ++ [(q, us ++ locs.map (mk q))] := by
  induction locs generalizing us with
  | nil => simp [add_usages_at_map]
  | cons l rest ih =>
      show add_usages_at_map mk (addEntry (m ++ [(q, us)]) q (mk q l)) q rest = _
      rw [addEntry_append_last _ _ _ _ hq, ih]
      simp

theorem add_usages_at_map_not_mem {μ : Type} (mk : String → Location → μ)
    (m : AList (List μ)) (q : String) (locs : List Location)
    (hq : q ∉ keysOf m) (hne : locs ≠ []) :
    add_usages_at_map mk m q locs = m ++ [(q, locs.map (mk q))] := by
  cases locs with
  | nil => exact absurd rfl hne
  | cons l rest =>
      show add_usages_at_map mk (addEntry m q (mk q l)) q rest = _
      rw [addEntry_not_mem _ _ _ hq, add_usages_at_map_append _ _ _ _ _ hq]
      simp

theorem build_usages_map_grouped {μ : Type} (mk : String → Location → μ)
    (j : AList (List Location)) (m : AList (List μ))
    (hdis : ∀ q ∈ keysOf j, q ∉ keysOf m)
    (hnodup : (keysOf j).Nodup)
    (hne : ∀ p ∈ j, p.2 ≠ []) :
    build_usages_map mk m j = m ++ j.map (fun p => (p.1, p.2.map (mk p.1))) := by
  induction j generalizing m with
  | nil => simp [build_usages_map]
  | cons p rest ih =>
      obtain ⟨q, locs⟩ := p
      have hcons := List.nodup_cons.mp (by simpa using hnodup)
      show build_usages_map mk (add_usages_at_map mk m q locs) rest = _
      rw [add_usages_at_map_not_mem _ _ _ _ (hdis q (by simp)) (hne (q, locs) (by simp))]
      have hd' : ∀ q' ∈ keysOf rest, q' ∉ keysOf (m ++ [(q, locs.map (mk q))]) := by
        intro q' hq'
        rw [keysOf_append]
        simp only [List.mem_append]
        rintro (h | h)
        · exact hdis q' (by simp [hq']) h
        · simp only [keysOf_cons, keysOf_nil, List.mem_singleton] at h
          exact hcons.1 (h ▸ hq')
      rw [ih _ hd' hcons.2 (fun p hp => hne p (List.mem_cons_of_mem _ hp))]
      simp

/-- Map-level effect of the inner `add_value_usage` loop at one
(parameter, value) pair. -/
def add_vu_at_map (m : AList (AList (List ValueUsage))) (pq v : String) :
    List Location → AList (AList (List ValueUsage))
  | [] => m
  | l :: rest =>
      add_vu_at_map (modEntry m pq [] (fun inner => addEntry inner v ⟨pq, v, l⟩)) pq v rest

/-- Map-level effect of the `for value, locations in values.items()` loop. -/
def build_values_of_map (m : AList (AList (List ValueUsage))) (pq : String) :
    AList (List Location) → AList (AList (List ValueUsage))
  | [] => m
  | (v, locs) :: rest => build_values_of_map (add_vu_at_map m pq v locs) pq rest

/-- Map-level effect of the value-usages revive loop of `from_json`. -/
def build_value_usages_map (m : AList (AList (List ValueUsage))) :
    AList (AList (List Location)) → AList (AList (List ValueUsage))
  | [] => m
  | (pq, values) :: rest => build_value_usages_map (build_values_of_map m pq values) rest

theorem add_vu_at_map_append (m : AList (AList (List ValueUsage))) (pq v : String)
    (inner : AList (List ValueUsage)) (locs : List Location) (hpq : pq ∉ keysOf m) :
    add_vu_at_map (m ++ [(pq, inner)]) pq v locs =
      m ++ [(pq, add_usages_at_map (fun v l => ValueUsage.mk pq v l) inner v locs)] := by
  induction locs generalizing inner with
  | nil => simp [add_vu_at_map, add_usages_at_map]
  | cons l rest ih =>
      show add_vu_at_map (modEntry (m ++ [(pq, inner)]) pq []
        (fun inner => addEntry inner v ⟨pq, v, l⟩)) pq v rest = _
      rw [modEntry_append_last _ _ _ _ _ hpq, ih]
      rfl

theorem add_vu_at_map_not_mem (m : AList (AList (List ValueUsage))) (pq v : String)
    (locs : List Location) (hpq : pq ∉ keysOf m) (hne : locs ≠ []) :
    add_vu_at_map m pq v locs =
      m ++ [(pq, add_usages_at_map (fun v l => ValueUsage.mk pq v l) [] v locs)] := by
  cases locs with
  | nil => exact absurd rfl hne
  | cons l rest =>
      show add_vu_at_map (modEntry m pq [] (fun inner => addEntry inner v ⟨pq, v, l⟩)) pq v rest = _
      rw [modEntry_not_mem _ _ _ _ hpq, add_vu_at_map_append _ _ _ _ _ hpq]
      rfl

theorem build_values_of_map_append (m : AList (AList (List ValueUsage))) (pq : String)
    (inner : AList (List ValueUsage)) (values : AList (List Location))
    (hpq : pq ∉ keysOf m) :
    build_values_of_map (m ++ [(pq, inner)]) pq values =
      m ++ [(pq, build_usages_map (fun v l => ValueUsage.mk pq v l) inner values)] := by
  induction values generalizing inner with
  | nil => simp [build_values_of_map, build_usages_map]
  | cons p rest ih =>
      obtain ⟨v, locs⟩ := p
      show build_values_of_map (add_vu_at_map (m ++ [(pq, inner)]) pq v locs) pq rest = _
      rw [add_vu_at_map_append _ _ _ _ _ hpq, ih]
      rfl

theorem build_values_of_map_not_mem (m : AList (AList (List ValueUsage))) (pq : String)
    (values : AList (List Location)) (hpq : pq ∉ keysOf m) (hvne : values ≠ [])
    (hne : ∀ p ∈ values, p.2 ≠ []) :
    build_values_of_map m pq values =
      m ++ [(pq, build_usages_map (fun v l => ValueUsage.mk pq v l) [] values)] := by
  cases values with
  | nil => exact absurd rfl hvne
  | cons p rest =>
      obtain ⟨v, locs⟩ := p
      show build_values_of_map (add_vu_at_map m pq v locs) pq rest = _
      rw [add_vu_at_map_not_mem _ _ _ _ hpq (hne (v, locs) (by simp)),
        build_values_of_map_append _ _ _ _ hpq]
      rfl

theorem build_value_usages_map_grouped (j : AList (AList (List Location)))
    (m : AList (AList (List ValueUsage)))
    (hdis : ∀ q ∈ keysOf j, q ∉ keysOf m)
    (hnodup : (keysOf j).Nodup)
    (hgne : ∀ p ∈ j, p.2 ≠ [])
    (hne : ∀ p ∈ j, ∀ q ∈ p.2, q.2 ≠ []) :
    build_value_usages_map m j =
      m ++ j.map (fun p =>
        (p.1, build_usages_map (fun v l => ValueUsage.mk p.1 v l) [] p.2)) := by
  induction j generalizing m with
  | nil => simp [build_value_usages_map]
  | cons p rest ih =>
      obtain ⟨pq, values⟩ := p
      have hcons := List.nodup_cons.mp (by simpa using hnodup)
      show build_value_usages_map (build_values_of_map m pq values) rest = _
      rw [build_values_of_map_not_mem _ _ _ (hdis pq (by simp)) (hgne (pq, values) (by simp))
        (fun q hq => hne (pq, values) (by simp) q hq)]
      have hd' : ∀ q' ∈ keysOf rest,
          q' ∉ keysOf (m ++ [(pq, build_usages_map (fun v l => ValueUsage.mk pq v l) [] values)]) := by
        intro q' hq'
        rw [keysOf_append]
        simp only [List.mem_append]
        rintro (h | h)
        · exact hdis q' (by simp [hq']) h
        · simp only [keysOf_cons, keysOf_nil, List.mem_singleton] at h
          exact hcons.1 (h ▸ hq')
      rw [ih _ hd' hcons.2 (fun p hp => hgne p (List.mem_cons_of_mem _ hp))
        (fun p hp => hne p (List.mem_cons_of_mem _ hp))]
      simp

theorem add_class_usages_at_eq (locs : List Location) (st : UsageStore) (q : String) :
    add_class_usages_at st q locs =
      { st with class_usages := add_usages_at_map ClassUsage.mk st.class_usages q locs } := by
  induction locs generalizing st with
  | nil => rfl
  | cons l rest ih =>
      show add_class_usages_at (st.add_class_usage q l) q rest = _
      rw [ih]
      rfl

theorem revive_class_usages_eq (j : AList (List Location)) (st : UsageStore) :
    revive_class_usages st j =
      { st with class_usages := build_usages_map ClassUsage.mk st.class_usages j } := by
  induction j generalizing st with
  | nil => rfl
  | cons p rest ih =>
      obtain ⟨q, locs⟩ := p
      show revive_class_usages (add_class_usages_at st q locs) rest = _
      rw [add_class_usages_at_eq, ih]
      rfl

theorem add_function_usages_at_eq (locs : List Location) (st : UsageStore) (q : String) :
    add_function_usages_at st q locs =
      { st with function_usages := add_usages_at_map FunctionUsage.mk st.function_usages q locs } := by
  induction locs generalizing st with
  | nil => rfl
  | cons l rest ih =>
      show add_function_usages_at (st.add_function_usage q l) q rest = _
      rw [ih]
      rfl

theorem revive_function_usages_eq (j : AList (List Location)) (st : UsageStore) :
    revive_function_usages st j =
      { st with function_usages := build_usages_map FunctionUsage.mk st.function_usages j } := by
  induction j generalizing st with
  | nil => rfl
  | cons p rest ih =>
      obtain ⟨q, locs⟩ := p
      show revive_function_usages (add_function_usages_at st q locs) rest = _
      rw [add_function_usages_at_eq, ih]
      rfl

theorem add_parameter_usages_at_eq (locs : List Location) (st : UsageStore) (q : String) :
    add_parameter_usages_at st q locs =
      { st with parameter_usages := add_usages_at_map ParameterUsage.mk st.parameter_usages q locs } := by
  induction locs generalizing st with
  | nil => rfl
  | cons l rest ih =>
      show add_parameter_usages_at (st.add_parameter_usage q l) q rest = _
      rw [ih]
      rfl

theorem revive_parameter_usages_eq (j : AList (List Location)) (st : UsageStore) :
    revive_parameter_usages st j =
      { st with parameter_usages := build_usages_map ParameterUsage.mk st.parameter_usages j } := by
  induction j generalizing st with
  | nil => rfl
  | cons p rest ih =>
      obtain ⟨q, locs⟩ := p
      show revive_parameter_usages (add_parameter_usages_at st q locs) rest = _
      rw [add_parameter_usages_at_eq, ih]
      rfl

theorem add_value_usages_at_eq (locs : List Location) (st : UsageStore) (pq v : String) :
    add_value_usages_at st pq v locs =
      { st with value_usages := add_vu_at_map st.value_usages pq v locs } := by
  induction locs generalizing st with
  | nil => rfl
  | cons l rest ih =>
      show add_value_usages_at (st.add_value_usage pq v l) pq v rest = _
      rw [ih]
      rfl

theorem revive_values_of_eq (values : AList (List Location)) (st : UsageStore) (pq : String) :
    revive_values_of st pq values =
      { st with value_usages := build_values_of_map st.value_usages pq values } := by
  induction values generalizing st with
  | nil => rfl
  | cons p rest ih =>
      obtain ⟨v, locs⟩ := p
      show revive_values_of (add_value_usages_at st pq v locs) pq rest = _
      rw [add_value_usages_at_eq, ih]
      rfl

theorem revive_value_usages_eq (j : AList (AList (List Location))) (st : UsageStore) :
    revive_value_usages st j =
      { st with value_usages := build_value_usages_map st.value_usages j } := by
  induction j generalizing st with
  | nil => rfl
  | cons p rest ih =>
      obtain ⟨pq, values⟩ := p
      show revive_value_usages (revive_values_of st pq values) rest = _
      rw [revive_values_of_eq, ih]
      rfl

theorem keysOf_map_json {β γ : Type} (m : AList β) (g : String × β → γ) :
    keysOf (m.map (fun p => (p.1, g p))) = keysOf m := by
  induction m with
  | nil => rfl
  | cons p rest ih =>
      obtain ⟨k, v⟩ := p
      simp [ih]

theorem map_location_mk_id {μ : Type} (mk : String → Location → μ) (loc : μ → Location)
    (q : String) (us : List μ) (h : ∀ u ∈ us, mk q (loc u) = u) :
    (us.map loc).map (mk q) = us := by
  rw [List.map_map]
  induction us with
  | nil => rfl
  | cons u rest ih =>
      simp only [List.map_cons, Function.comp_apply]
      rw [h u (List.mem_cons_self _ _), ih (fun u hu => h u (List.mem_cons_of_mem _ hu))]

theorem map_back_id {μ : Type} (mk : String → Location → μ) (loc : μ → Location)
    (m : AList (List μ)) (hqn : ∀ p ∈ m, ∀ u ∈ p.2, mk p.1 (loc u) = u) :
    (m.map (fun p => (p.1, p.2.map loc))).map (fun p => (p.1, p.2.map (mk p.1))) = m := by
  induction m with
  | nil => rfl
  | cons p rest ih =>
      obtain ⟨q, us⟩ := p
      simp only [List.map_cons]
      rw [map_location_mk_id mk loc q us (fun u hu => hqn (q, us) (List.mem_cons_self _ _) u hu),
        ih (fun p hp => hqn p (List.mem_cons_of_mem _ hp))]

theorem build_from_json_map {μ : Type} (mk : String → Location → μ) (loc : μ → Location)
    (m : AList (List μ))
    (hn : (keysOf m).Nodup)
    (hne : ∀ p ∈ m, p.2 ≠ [])
    (hqn : ∀ p ∈ m, ∀ u ∈ p.2, mk p.1 (loc u) = u) :
    build_usages_map mk [] (m.map (fun p => (p.1, p.2.map loc))) = m := by
  rw [build_usages_map_grouped mk _ []
    (by intro q hq; simp)
    (by rw [keysOf_map_json]; exact hn)
    (by
      intro p hp
      obtain ⟨p', hp', rfl⟩ := List.mem_map.mp hp
      intro hcontra
      exact hne p' hp' (by simpa using hcontra))]
  rw [List.nil_append]
  exact map_back_id mk loc m hqn

theorem value_map_back_id (m : AList (AList (List ValueUsage)))
    (hin : ∀ p ∈ m, (keysOf p.2).Nodup)
    (hine : ∀ p ∈ m, ∀ q ∈ p.2, q.2 ≠ [])
    (hqn : ∀ p ∈ m, ∀ q ∈ p.2, ∀ u ∈ q.2, ValueUsage.mk p.1 q.1 u.location = u) :
    (m.map (fun p => (p.1, p.2.map (fun q => (q.1, q.2.map (fun u => u.location)))))).map
      (fun p => (p.1, build_usages_map (fun v l => ValueUsage.mk p.1 v l) [] p.2)) = m := by
  induction m with
  | nil => rfl
  | cons p rest ih =>
      obtain ⟨pq, values⟩ := p
      simp only [List.map_cons]
      rw [build_from_json_map (fun v l => ValueUsage.mk pq v l) (fun u => u.location) values
          (hin (pq, values) (List.mem_cons_self _ _))
          (hine (pq, values) (List.mem_cons_self _ _))
          (fun q hq u hu => hqn (pq, values) (List.mem_cons_self _ _) q hq u hu),
        ih (fun p hp => hin p (List.mem_cons_of_mem _ hp))
          (fun p hp => hine p (List.mem_cons_of_mem _ hp))
          (fun p hp => hqn p (List.mem_cons_of_mem _ hp))]

theorem build_value_from_json_map (m : AList (AList (List ValueUsage)))
    (hn : (keysOf m).Nodup)
    (hgne : ∀ p ∈ m, p.2 ≠ [])
    (hin : ∀ p ∈ m, (keysOf p.2).Nodup)
    (hine : ∀ p ∈ m, ∀ q ∈ p.2, q.2 ≠ [])
    (hqn : ∀ p ∈ m, ∀ q ∈ p.2, ∀ u ∈ q.2, ValueUsage.mk p.1 q.1 u.location = u) :
    build_value_usages_map []
      (m.map (fun p => (p.1, p.2.map (fun q => (q.1, q.2.map (fun u => u.location)))))) = m := by
  rw [build_value_usages_map_grouped _ []
    (by intro q hq; simp)
    (by rw [keysOf_map_json]; exact hn)
    (by
      intro p hp
      obtain ⟨p', hp', rfl⟩ := List.mem_map.mp hp
      intro hcontra
      exact hgne p' hp' (by simpa using hcontra))
    (by
      intro p hp q hq
      obtain ⟨p', hp', rfl⟩ := List.mem_map.mp hp
      simp only at hq
      obtain ⟨q', hq', rfl⟩ := List.mem_map.mp hq
      intro hcontra
      exact hine p' hp' q' hq' (by simpa using hcontra))]
  rw [List.nil_append]
  exact value_map_back_id m hin hine hqn

/-- Well-formedness maintained by the store's own API: no duplicate keys
(Python dicts), no key with an empty usage list or empty nested value map
(the `add_*` methods create a key only together with its first usage), and
every usage records the key it is stored under. -/
def UsageStore.wf (s : UsageStore) : Prop :=
  ((keysOf s.class_usages).Nodup
    ∧ ∀ p ∈ s.class_usages, p.2 ≠ [] ∧ ∀ u ∈ p.2, u.qname = p.1)
  ∧ ((keysOf s.function_usages).Nodup
    ∧ ∀ p ∈ s.function_usages, p.2 ≠ [] ∧ ∀ u ∈ p.2, u.qname = p.1)
  ∧ ((keysOf s.parameter_usages).Nodup
    ∧ ∀ p ∈ s.parameter_usages, p.2 ≠ [] ∧ ∀ u ∈ p.2, u.qname = p.1)
  ∧ ((keysOf s.value_usages).Nodup
    ∧ ∀ p ∈ s.value_usages, p.2 ≠ [] ∧ (keysOf p.2).Nodup
      ∧ ∀ q ∈ p.2, q.2 ≠ [] ∧ ∀ u ∈ q.2, u.parameter_qname = p.1 ∧ u.value = q.1)

/-- A store in which a class key carries an empty usage list, as produced by
the seeding step (`init_class`) for an unused public class. -/
def C9empty_key_store : UsageStore := ⟨[("sk.C", [])], [], [], []⟩

/-- Claim C9, as stated, is false: serialization does not round-trip for a
store containing a key with an empty occurrence list — `to_json` writes the
key with an empty list, but `from_json` only revives keys through `add_*`
calls, one per location, so the key is dropped and the revived store has
different keys. -/
theorem claim_C9_counterexample :
    keysOf (UsageStore.from_json (UsageStore.to_json C9empty_key_store)).class_usages ≠
      keysOf C9empty_key_store.class_usages := by
  decide

/-- Claim C9 (amended): for every well-formed UsageStore — no duplicate
keys, every per-key usage list (and nested value map and its lists)
nonempty, and every usage recording the key it is stored under, all of which
the store's own `add_*` API maintains — `from_json (to_json s)` is exactly
`s`: the same keys in the same order with the same per-key usage lists.
Keys with empty lists (produced by seeding) are dropped by the round trip,
as the counterexample shows. -/
theorem claim_C9_amended (s : UsageStore) (h : UsageStore.wf s) :
    UsageStore.from_json (UsageStore.to_json s) = s := by
  obtain ⟨⟨hcn, hc⟩, ⟨hfn, hf⟩, ⟨hpn, hp⟩, ⟨hvn, hv⟩⟩ := h
  obtain ⟨sc, sf, sp, sv⟩ := s
  simp only at hcn hc hfn hf hpn hp hvn hv
  show UsageStore.from_json (UsageStore.to_json ⟨sc, sf, sp, sv⟩) = ⟨sc, sf, sp, sv⟩
  rw [UsageStore.to_json, UsageStore.from_json]
  rw [revive_class_usages_eq, revive_function_usages_eq, revive_parameter_usages_eq,
    revive_value_usages_eq]
  simp only [UsageStore.empty, UsageStore.mk.injEq]
  refine ⟨?_, ?_, ?_, ?_⟩
  · exact build_from_json_map ClassUsage.mk (fun u => u.location) sc hcn
      (fun p hp' => (hc p hp').1)
      (fun p hp' u hu => by
        obtain ⟨qn, loc⟩ := u
        have hq := (hc p hp').2 ⟨qn, loc⟩ hu
        simp only at hq
        simp [hq])
  · exact build_from_json_map FunctionUsage.mk (fun u => u.location) sf hfn
      (fun p hp' => (hf p hp').1)
      (fun p hp' u hu => by
        obtain ⟨qn, loc⟩ := u
        have hq := (hf p hp').2 ⟨qn, loc⟩ hu
        simp only at hq
        simp [hq])
  · exact build_from_json_map ParameterUsage.mk (fun u => u.location) sp hpn
      (fun p hp' => (hp p hp').1)
      (fun p hp' u hu => by
        obtain ⟨qn, loc⟩ := u
        have hq := (hp p hp').2 ⟨qn, loc⟩ hu
        simp only at hq
        simp [hq])
  · exact build_value_from_json_map sv hvn
      (fun p hp' => (hv p hp').1)
      (fun p hp' => (hv p hp').2.1)
      (fun p hp' q hq => ((hv p hp').2.2 q hq).1)
      (fun p hp' q hq u hu => by
        obtain ⟨pqn, vv, loc⟩ := u
        have hu2 := ((hv p hp').2.2 q hq).2 ⟨pqn, vv, loc⟩ hu
        simp only at hu2
        simp [hu2.1, hu2.2])

/-- A small well-formed store for the C9 witness. -/
def C9wf_store : UsageStore :=
  ⟨[("sk.C", [⟨"sk.C", ⟨"a.py", some 1, some 2⟩⟩])],
   [("sk.C.f", [⟨"sk.C.f", ⟨"a.py", some 1, some 2⟩⟩])],
   [("sk.C.f.x", [⟨"sk.C.f.x", ⟨"a.py", some 1, some 2⟩⟩])],
   [("sk.C.f.x", [("1", [⟨"sk.C.f.x", "1", ⟨"a.py", some 1, some 2⟩⟩])])]⟩

/-- Witness for claim C9 (amended): the concrete well-formed store
round-trips to itself. -/
theorem claim_C9_witness :
    UsageStore.from_json (UsageStore.to_json C9wf_store) = C9wf_store :=
  claim_C9_amended C9wf_store (by unfold UsageStore.wf; decide)

/-!
Improvement Advisor:
`src/library_analyzer/commands/suggest_improvements/_suggest_improvements.py`.
Its helpers `parent_qname` (from `library_analyzer.utils`) and the
`API.get_default_value` accessor, and the `init_*` / `remove_*` /
`n_*_usages` methods of the newer usages model it imports, are not in this
source tree; those are modelled from the spec and marked as such.
-/

/-- Modelled from the spec: `parent_qname` — the qualified name with its
last dotted component removed (a parameter's qualified name is
`functionQName + "." + paramName`). -/
def parent_qname (qname : String) : String :=
  String.intercalate "." ((qname.splitOn ".").dropLast)

/-- The locations of implicit usages of a parameter's default value: the set
difference `set(function locations) - set(parameter locations)` computed in
`__add_implicit_usages_of_default_value`.  The set difference compares
Locations by value (per the spec's Location equality); a Python set iterates
in unspecified order, fixed here to first-occurrence order.  The source
reads `usages.function_usages[function_qname]`, a `KeyError` when absent;
preprocessing steps 1-2 guarantee presence and the model reads an absent key
as an empty list. -/
def implicit_default_locations (usages : UsageStore) (parameter_qname : String) :
    List Location :=
  (((lookupD usages.function_usages (PythonAnalyzer.parent_qname parameter_qname) []).map
      (fun it => it.location)).dedup).filter
    (fun l => !(((lookupD usages.parameter_usages parameter_qname []).map
      (fun it => it.location)).contains l))

/-- Body of the loop of `__add_implicit_usages_of_default_value` for one
parameter key: add one synthetic parameter usage and one synthetic
(parameter, default-value) usage at each implicit location.
`get_default_value` stands for the external `api.get_default_value`
(modelled from the spec: it renders the parameter's default-value text). -/
def add_implicit_step (get_default_value : String → String) (acc : UsageStore)
    (parameter_qname : String) : UsageStore :=
  (implicit_default_locations acc parameter_qname).foldl
    (fun acc location =>
      (acc.add_parameter_usage parameter_qname location).add_value_usage
        parameter_qname (get_default_value parameter_qname) location)
    acc

/-- `__add_implicit_usages_of_default_value`: iterate over a snapshot of the
parameter keys (`list(usages.parameter_usages.items())`). -/
def add_implicit_usages_of_default_value (get_default_value : String → String)
    (usages : UsageStore) : UsageStore :=
  (keysOf usages.parameter_usages).foldl (add_implicit_step get_default_value) usages

theorem foldl_add_two_function_usages (pq dv : String) (ls : List Location)
    (acc : UsageStore) :
    (ls.foldl (fun acc location =>
        (acc.add_parameter_usage pq location).add_value_usage pq dv location)
      acc).function_usages = acc.function_usages := by
  induction ls generalizing acc with
  | nil => rfl
  | cons l rest ih => rw [List.foldl_cons, ih]; rfl

theorem foldl_add_two_params_self (pq dv : String) (ls : List Location) (acc : UsageStore) :
    lookupD (ls.foldl (fun acc location =>
        (acc.add_parameter_usage pq location).add_value_usage pq dv location)
      acc).parameter_usages pq [] =
      lookupD acc.parameter_usages pq [] ++ ls.map (fun l => ParameterUsage.mk pq l) := by
  induction ls generalizing acc with
  | nil => simp
  | cons l rest ih =>
      rw [List.foldl_cons, ih]
      show (lookupD (addEntry acc.parameter_usages pq ⟨pq, l⟩) pq []) ++ _ = _
      rw [lookupD_addEntry_self]
      simp

theorem foldl_add_two_params_ne (pq dv : String) (ls : List Location) (acc : UsageStore)
    (pq' : String) (h : pq ≠ pq') :
    lookupD (ls.foldl (fun acc location =>
        (acc.add_parameter_usage pq location).add_value_usage pq dv location)
      acc).parameter_usages pq' [] = lookupD acc.parameter_usages pq' [] := by
  induction ls generalizing acc with
  | nil => rfl
  | cons l rest ih =>
      rw [List.foldl_cons, ih]
      show lookupD (addEntry acc.parameter_usages pq ⟨pq, l⟩) pq' [] = _
      exact lookupD_addEntry_ne _ _ _ _ h

theorem foldl_add_two_values_self (pq dv : String) (ls : List Location) (acc : UsageStore) :
    lookupD (lookupD (ls.foldl (fun acc location =>
        (acc.add_parameter_usage pq location).add_value_usage pq dv location)
      acc).value_usages pq []) dv [] =
      lookupD (lookupD acc.value_usages pq []) dv [] ++
        ls.map (fun l => ValueUsage.mk pq dv l) := by
  induction ls generalizing acc with
  | nil => simp
  | cons l rest ih =>
      rw [List.foldl_cons, ih]
      show lookupD (lookupD (modEntry acc.value_usages pq []
        (fun inner => addEntry inner dv ⟨pq, dv, l⟩)) pq []) dv [] ++ _ = _
      rw [lookupD_modEntry_self, lookupD_addEntry_self]
      simp

theorem foldl_add_two_values_ne (pq dv : String) (ls : List Location) (acc : UsageStore)
    (pq' : String) (h : pq ≠ pq') :
    lookupD (ls.foldl (fun acc location =>
        (acc.add_parameter_usage pq location).add_value_usage pq dv location)
      acc).value_usages pq' [] = lookupD acc.value_usages pq' [] := by
  induction ls generalizing acc with
  | nil => rfl
  | cons l rest ih =>
      rw [List.foldl_cons, ih]
      show lookupD (modEntry acc.value_usages pq []
        (fun inner => addEntry inner dv ⟨pq, dv, l⟩)) pq' [] = _
      exact lookupD_modEntry_ne _ _ _ _ _ _ h

theorem fold_steps_function_usages (g : String → String) (ks : List String)
    (acc : UsageStore) :
    (ks.foldl (add_implicit_step g) acc).function_usages = acc.function_usages := by
  induction ks generalizing acc with
  | nil => rfl
  | cons k rest ih =>
      rw [List.foldl_cons, ih, add_implicit_step, foldl_add_two_function_usages]

theorem fold_steps_params_ne (g : String → String) (ks : List String) (acc : UsageStore)
    (pq : String) (h : pq ∉ ks) :
    lookupD (ks.foldl (add_implicit_step g) acc).parameter_usages pq [] =
      lookupD acc.parameter_usages pq [] := by
  induction ks generalizing acc with
  | nil => rfl
  | cons k rest ih =>
      have hk : k ≠ pq := fun e => h (by simp [e])
      have h' : pq ∉ rest := fun e => h (by simp [e])
      rw [List.foldl_cons, ih _ h', add_implicit_step, foldl_add_two_params_ne _ _ _ _ _ hk]

theorem fold_steps_values_ne (g : String → String) (ks : List String) (acc : UsageStore)
    (pq : String) (h : pq ∉ ks) :
    lookupD (ks.foldl (add_implicit_step g) acc).value_usages pq [] =
      lookupD acc.value_usages pq [] := by
  induction ks generalizing acc with
  | nil => rfl
  | cons k rest ih =>
      have hk : k ≠ pq := fun e => h (by simp [e])
      have h' : pq ∉ rest := fun e => h (by simp [e])
      rw [List.foldl_cons, ih _ h', add_implicit_step, foldl_add_two_values_ne _ _ _ _ _ hk]

theorem length_filter_beq_of_nodup (L : Location) (ls : List Location) (h : ls.Nodup) :
    (ls.filter (fun l => l == L)).length = if L ∈ ls then 1 else 0 := by
  induction ls with
  | nil => simp
  | cons a rest ih =>
      have hc := List.nodup_cons.mp h
      rw [List.filter_cons]
      by_cases ha : a = L
      · subst ha
        simp only [beq_self_eq_true, if_true, List.length_cons]
        have : rest.filter (fun l => l == a) = [] := by
          rw [List.filter_eq_nil_iff]
          intro b hb
          simp only [beq_iff_eq]
          intro e
          exact hc.1 (e ▸ hb)
        rw [this]
        simp
      · have hab : (a == L) = false := by simp [ha]
        rw [hab]
        simp only [Bool.false_eq_true, if_false]
        rw [ih hc.2]
        have : (L ∈ a :: rest) ↔ L ∈ rest := by
          simp [Ne.symm ha]
        by_cases hm : L ∈ rest
        · rw [if_pos hm, if_pos (this.mpr hm)]
        · rw [if_neg hm, if_neg (fun hh => hm (this.mp hh))]

/-- Claim C2: after the synthesize-implicit-defaults step, for every
parameter key of the store (distinct keys, as in a Python dict), and for
every location L: exactly one synthetic parameter usage and exactly one
synthetic (parameter, default-value) usage at L have been added when L
occurs among the owning function's usage locations but not among the
parameter's own usage locations, and nothing has been added at L otherwise
(in particular, nothing is added at locations already present). -/
theorem claim_C2 (get_default_value : String → String) (s : UsageStore) (pq : String)
    (hnd : (keysOf s.parameter_usages).Nodup)
    (hpq : pq ∈ keysOf s.parameter_usages) :
    (∀ L, ((lookupD (add_implicit_usages_of_default_value get_default_value s).parameter_usages
          pq []).filter (fun u => u.location == L)).length =
        ((lookupD s.parameter_usages pq []).filter (fun u => u.location == L)).length +
          (if L ∈ (lookupD s.function_usages (parent_qname pq) []).map (fun it => it.location) ∧
              L ∉ (lookupD s.parameter_usages pq []).map (fun it => it.location)
            then 1 else 0))
    ∧ (∀ L, ((lookupD (lookupD
            (add_implicit_usages_of_default_value get_default_value s).value_usages pq [])
          (get_default_value pq) []).filter (fun u => u.location == L)).length =
        ((lookupD (lookupD s.value_usages pq []) (get_default_value pq) []).filter
          (fun u => u.location == L)).length +
          (if L ∈ (lookupD s.function_usages (parent_qname pq) []).map (fun it => it.location) ∧
              L ∉ (lookupD s.parameter_usages pq []).map (fun it => it.location)
            then 1 else 0)) := by
  obtain ⟨ks₁, ks₂, hsplit⟩ := List.append_of_mem hpq
  have hnd' : (ks₁ ++ pq :: ks₂).Nodup := hsplit ▸ hnd
  rw [List.nodup_append] at hnd'
  obtain ⟨hnd1, hnd2, hdisj⟩ := hnd'
  have hpq2 : pq ∉ ks₂ := (List.nodup_cons.mp hnd2).1
  have hpq1 : pq ∉ ks₁ := fun h => hdisj h (List.mem_cons_self _ _)
  have hfold : add_implicit_usages_of_default_value get_default_value s =
      ks₂.foldl (add_implicit_step get_default_value)
        (add_implicit_step get_default_value
          (ks₁.foldl (add_implicit_step get_default_value) s) pq) := by
    rw [add_implicit_usages_of_default_value, hsplit, List.foldl_append, List.foldl_cons]
  have hmidf : (ks₁.foldl (add_implicit_step get_default_value) s).function_usages =
      s.function_usages := fold_steps_function_usages _ _ _
  have hmidp : lookupD (ks₁.foldl (add_implicit_step get_default_value) s).parameter_usages
      pq [] = lookupD s.parameter_usages pq [] := fold_steps_params_ne _ _ _ _ hpq1
  have hmidv : lookupD (ks₁.foldl (add_implicit_step get_default_value) s).value_usages
      pq [] = lookupD s.value_usages pq [] := fold_steps_values_ne _ _ _ _ hpq1
  have hndm : (implicit_default_locations
      (ks₁.foldl (add_implicit_step get_default_value) s) pq).Nodup :=
    List.Nodup.filter _ (List.nodup_dedup _)
  have hmem : ∀ L, (L ∈ implicit_default_locations
        (ks₁.foldl (add_implicit_step get_default_value) s) pq) ↔
      (L ∈ (lookupD s.function_usages (parent_qname pq) []).map (fun it => it.location) ∧
       L ∉ (lookupD s.parameter_usages pq []).map (fun it => it.location)) := by
    intro L
    rw [implicit_default_locations, hmidf, hmidp]
    simp [List.mem_filter, List.mem_dedup]
  have hfinp : lookupD (add_implicit_usages_of_default_value get_default_value s).parameter_usages
      pq [] = lookupD s.parameter_usages pq [] ++
        (implicit_default_locations (ks₁.foldl (add_implicit_step get_default_value) s) pq).map
          (fun l => ParameterUsage.mk pq l) := by
    rw [hfold, fold_steps_params_ne _ _ _ _ hpq2, add_implicit_step,
      foldl_add_two_params_self, hmidp]
  have hfinv : lookupD (lookupD
      (add_implicit_usages_of_default_value get_default_value s).value_usages pq [])
        (get_default_value pq) [] =
      lookupD (lookupD s.value_usages pq []) (get_default_value pq) [] ++
        (implicit_default_locations (ks₁.foldl (add_implicit_step get_default_value) s) pq).map
          (fun l => ValueUsage.mk pq (get_default_value pq) l) := by
    rw [hfold, fold_steps_values_ne _ _ _ _ hpq2, add_implicit_step,
      foldl_add_two_values_self, hmidv]
  constructor
  · intro L
    rw [hfinp, List.filter_append, List.length_append]
    congr 1
    rw [List.filter_map, List.length_map]
    have hfn : ((implicit_default_locations
          (ks₁.foldl (add_implicit_step get_default_value) s) pq).filter
        ((fun u => u.location == L) ∘ (fun l => ParameterUsage.mk pq l))) =
        ((implicit_default_locations
          (ks₁.foldl (add_implicit_step get_default_value) s) pq).filter
        (fun l => l == L)) := rfl
    rw [hfn, length_filter_beq_of_nodup L _ hndm, if_congr (hmem L) rfl rfl]
  · intro L
    rw [hfinv, List.filter_append, List.length_append]
    congr 1
    rw [List.filter_map, List.length_map]
    have hfn : ((implicit_default_locations
          (ks₁.foldl (add_implicit_step get_default_value) s) pq).filter
        ((fun u => u.location == L) ∘ (fun l => ValueUsage.mk pq (get_default_value pq) l))) =
        ((implicit_default_locations
          (ks₁.foldl (add_implicit_step get_default_value) s) pq).filter
        (fun l => l == L)) := rfl
    rw [hfn, length_filter_beq_of_nodup L _ hndm, if_congr (hmem L) rfl rfl]

/-- The spec's concrete scenario for C2: a function `m.f(a, b=1)` with one
recorded call that sets `a` but not `b`. -/
def C2call_location : Location := ⟨"c.py", some 4, some 1⟩

def C2store : UsageStore :=
  ⟨[],
   [("m.f", [⟨"m.f", C2call_location⟩])],
   [("m.f.a", [⟨"m.f.a", C2call_location⟩]), ("m.f.b", [])],
   [("m.f.a", [("0", [⟨"m.f.a", "0", C2call_location⟩])])]⟩

def C2default_value (_pq : String) : String := "1"

/-- Witness for claim C2 at the spec's scenario: after default synthesis,
`m.f.b` gains exactly one parameter usage and one value usage for `"1"` at
the call's location. -/
theorem claim_C2_witness :
    (((lookupD (add_implicit_usages_of_default_value C2default_value C2store).parameter_usages
          "m.f.b" []).filter (fun u => u.location == C2call_location)).length =
        ((lookupD C2store.parameter_usages "m.f.b" []).filter
          (fun u => u.location == C2call_location)).length +
          (if C2call_location ∈ (lookupD C2store.function_usages (parent_qname "m.f.b") []).map
                (fun it => it.location) ∧
              C2call_location ∉ (lookupD C2store.parameter_usages "m.f.b" []).map
                (fun it => it.location)
            then 1 else 0))
    ∧ (((lookupD (lookupD
            (add_implicit_usages_of_default_value C2default_value C2store).value_usages
            "m.f.b" []) (C2default_value "m.f.b") []).filter
          (fun u => u.location == C2call_location)).length =
        ((lookupD (lookupD C2store.value_usages "m.f.b" []) (C2default_value "m.f.b") []).filter
          (fun u => u.location == C2call_location)).length +
          (if C2call_location ∈ (lookupD C2store.function_usages (parent_qname "m.f.b") []).map
                (fun it => it.location) ∧
              C2call_location ∉ (lookupD C2store.parameter_usages "m.f.b" []).map
                (fun it => it.location)
            then 1 else 0)) := by
  have h := claim_C2 C2default_value C2store "m.f.b" (by decide) (by decide)
  exact ⟨h.1 C2call_location, h.2 C2call_location⟩

/-- Claim C3: Location equality is exactly field-wise equality, so
collection operations (membership, set difference, deduplication over
propositional equality) treat two Locations with identical fields as the
same value. -/
theorem claim_C3 (l1 l2 : Location) :
    (l1 = l2 ↔ l1.file = l2.file ∧ l1.line = l2.line ∧ l1.column = l2.column)
    ∧ (∀ s : List Location, l1.file = l2.file → l1.line = l2.line → l1.column = l2.column →
        (l1 ∈ s ↔ l2 ∈ s)) := by
  constructor
  · constructor
    · rintro rfl
      exact ⟨rfl, rfl, rfl⟩
    · rintro ⟨h1, h2, h3⟩
      cases l1
      cases l2
      simp_all
  · intro s h1 h2 h3
    have he : l1 = l2 := by
      cases l1
      cases l2
      simp_all
    rw [he]

/-- Witness for claim C3: two separately written Locations with identical
fields are equal. -/
theorem claim_C3_witness :
    (⟨"a.py", some 1, some 2⟩ : Location) = ⟨"a.py", some 1, some 2⟩ :=
  (claim_C3 ⟨"a.py", some 1, some 2⟩ ⟨"a.py", some 1, some 2⟩).1.mpr ⟨rfl, rfl, rfl⟩

/-- Modelled from the spec: `n_class_usages` — the occurrence count recorded
for a class key (0 when the key is absent). -/
def UsageStore.n_class_usages (s : UsageStore) (class_qname : String) : Nat :=
  (lookupD s.class_usages class_qname []).length

/-- Modelled from the spec: a qualified name is nested under a class's
qualified name when it extends it by at least one dotted component. -/
def is_nested_under (qname class_qname : String) : Bool :=
  List.isPrefixOf (class_qname ++ ".").data qname.data

/-- Modelled from the spec: `remove_class` removes the class key and
cascades — every function and parameter entry whose qualified name is nested
under the removed class's qualified name is also removed from the live
store. -/
def UsageStore.remove_class (s : UsageStore) (class_qname : String) : UsageStore :=
  { s with
    class_usages := s.class_usages.filter (fun p => !(p.1 == class_qname)),
    function_usages := s.function_usages.filter (fun p => !(is_nested_under p.1 class_qname)),
    parameter_usages := s.parameter_usages.filter (fun p => !(is_nested_under p.1 class_qname)) }

/-- Loop body of `__remove_rarely_used_classes`. -/
def remove_class_step (min_usages : Nat) (acc : List String × UsageStore)
    (class_qname : String) : List String × UsageStore :=
  if acc.2.n_class_usages class_qname < min_usages then
    (acc.1 ++ [class_qname], acc.2.remove_class class_qname)
  else acc

/-- `__remove_rarely_used_classes`: iterate over a snapshot of the class
keys, removing each class whose usage count is below the threshold.  The
source sorts the returned candidate list; sorting does not change
membership and is omitted. -/
def remove_rarely_used_classes (usages : UsageStore) (min_usages : Nat) :
    List String × UsageStore :=
  (keysOf usages.class_usages).foldl (remove_class_step min_usages) ([], usages)

/-- An entry survives the removal pass when its qualified name is nested
under none of the removed classes. -/
def survives (removed : List String) (q : String) : Bool :=
  removed.all (fun c => !(is_nested_under q c))

theorem survives_append (r : List String) (c q : String) :
    survives (r ++ [c]) q = (survives r q && !(is_nested_under q c)) := by
  simp [survives, List.all_append]

theorem mem_keysOf_iff {β : Type} {m : AList β} {q : String} :
    q ∈ keysOf m ↔ ∃ p, p ∈ m ∧ p.1 = q := by
  simp [keysOf, List.mem_map]

theorem filter_survives_step {μ : Type} (l : AList μ) (r : List String) (c : String) :
    (l.filter (fun p => survives r p.1)).filter (fun p => !(is_nested_under p.1 c)) =
      l.filter (fun p => survives (r ++ [c]) p.1) := by
  rw [List.filter_filter]
  congr 1
  funext p
  rw [survives_append]
  exact Bool.and_comm _ _

theorem remove_pass_maps (min_usages : Nat) (ks : List String)
    (acc : List String × UsageStore) (s : UsageStore)
    (hf : acc.2.function_usages = s.function_usages.filter (fun p => survives acc.1 p.1))
    (hp : acc.2.parameter_usages = s.parameter_usages.filter (fun p => survives acc.1 p.1)) :
    ((ks.foldl (remove_class_step min_usages) acc).2.function_usages =
      s.function_usages.filter
        (fun p => survives (ks.foldl (remove_class_step min_usages) acc).1 p.1))
    ∧ ((ks.foldl (remove_class_step min_usages) acc).2.parameter_usages =
      s.parameter_usages.filter
        (fun p => survives (ks.foldl (remove_class_step min_usages) acc).1 p.1)) := by
  induction ks generalizing acc with
  | nil => exact ⟨hf, hp⟩
  | cons c rest ih =>
      rw [List.foldl_cons]
      apply ih
      · unfold remove_class_step
        by_cases hcond : acc.2.n_class_usages c < min_usages
        · rw [if_pos hcond]
          show (acc.2.remove_class c).function_usages = _
          rw [UsageStore.remove_class]
          show acc.2.function_usages.filter _ = _
          rw [hf, filter_survives_step]
        · rw [if_neg hcond]
          exact hf
      · unfold remove_class_step
        by_cases hcond : acc.2.n_class_usages c < min_usages
        · rw [if_pos hcond]
          show (acc.2.remove_class c).parameter_usages = _
          rw [UsageStore.remove_class]
          show acc.2.parameter_usages.filter _ = _
          rw [hp, filter_survives_step]
        · rw [if_neg hcond]
          exact hp

/-- Claim C6: removing a class cascades — after the class-removal pass,
every function entry and every parameter entry whose qualified name is
nested under a removed class's qualified name is gone from the live store,
and entries not nested under any removed class remain. -/
theorem claim_C6 (usages : UsageStore) (min_usages : Nat) :
    (∀ c ∈ (remove_rarely_used_classes usages min_usages).1, ∀ q,
        is_nested_under q c = true →
          q ∉ keysOf (remove_rarely_used_classes usages min_usages).2.function_usages ∧
          q ∉ keysOf (remove_rarely_used_classes usages min_usages).2.parameter_usages)
    ∧ (∀ q, (∀ c ∈ (remove_rarely_used_classes usages min_usages).1,
          is_nested_under q c = false) →
        (q ∈ keysOf usages.function_usages →
            q ∈ keysOf (remove_rarely_used_classes usages min_usages).2.function_usages)
        ∧ (q ∈ keysOf usages.parameter_usages →
            q ∈ keysOf (remove_rarely_used_classes usages min_usages).2.parameter_usages)) := by
  obtain ⟨hcf, hcp⟩ := remove_pass_maps min_usages (keysOf usages.class_usages) ([], usages)
    usages (by simp [survives]) (by simp [survives])
  constructor
  · intro c hc q hq
    constructor
    · rw [show (remove_rarely_used_classes usages min_usages).2.function_usages =
          usages.function_usages.filter
            (fun p => survives (remove_rarely_used_classes usages min_usages).1 p.1) from hcf]
      intro hmem
      obtain ⟨p, hpmem, hpq⟩ := mem_keysOf_iff.mp hmem
      have hs := (List.mem_filter.mp hpmem).2
      rw [hpq] at hs
      rw [survives, List.all_eq_true] at hs
      have := hs c hc
      rw [hq] at this
      simp at this
    · rw [show (remove_rarely_used_classes usages min_usages).2.parameter_usages =
          usages.parameter_usages.filter
            (fun p => survives (remove_rarely_used_classes usages min_usages).1 p.1) from hcp]
      intro hmem
      obtain ⟨p, hpmem, hpq⟩ := mem_keysOf_iff.mp hmem
      have hs := (List.mem_filter.mp hpmem).2
      rw [hpq] at hs
      rw [survives, List.all_eq_true] at hs
      have := hs c hc
      rw [hq] at this
      simp at this
  · intro q hq
    constructor
    · intro hmemq
      rw [show (remove_rarely_used_classes usages min_usages).2.function_usages =
          usages.function_usages.filter
            (fun p => survives (remove_rarely_used_classes usages min_usages).1 p.1) from hcf]
      obtain ⟨p, hpmem, hpq⟩ := mem_keysOf_iff.mp hmemq
      apply mem_keysOf_iff.mpr
      refine ⟨p, List.mem_filter.mpr ⟨hpmem, ?_⟩, hpq⟩
      rw [hpq, survives, List.all_eq_true]
      intro c hc
      rw [hq c hc]
      simp
    · intro hmemq
      rw [show (remove_rarely_used_classes usages min_usages).2.parameter_usages =
          usages.parameter_usages.filter
            (fun p => survives (remove_rarely_used_classes usages min_usages).1 p.1) from hcp]
      obtain ⟨p, hpmem, hpq⟩ := mem_keysOf_iff.mp hmemq
      apply mem_keysOf_iff.mpr
      refine ⟨p, List.mem_filter.mpr ⟨hpmem, ?_⟩, hpq⟩
      rw [hpq, survives, List.all_eq_true]
      intro c hc
      rw [hq c hc]
      simp

/-- Concrete store for the C6 witness: class `pkg.A` is unused (count 0) and
will be removed at threshold 1; class `pkg.B` is used once and stays. -/
def C6store : UsageStore :=
  ⟨[("pkg.A", []), ("pkg.B", [⟨"pkg.B", ⟨"u.py", some 1, some 1⟩⟩])],
   [("pkg.A.f", [⟨"pkg.A.f", ⟨"u.py", some 2, some 1⟩⟩]), ("pkg.B.g", [])],
   [("pkg.A.f.x", [])],
   []⟩

/-- Witness for claim C6 at the concrete store: the function nested under
the removed class `pkg.A` is gone; the function under the kept class
`pkg.B` remains. -/
theorem claim_C6_witness :
    ("pkg.A.f" ∉ keysOf (remove_rarely_used_classes C6store 1).2.function_usages)
    ∧ ("pkg.B.g" ∈ keysOf (remove_rarely_used_classes C6store 1).2.function_usages) := by
  have h := claim_C6 C6store 1
  exact ⟨(h.1 "pkg.A" (by decide) "pkg.A.f" (by decide)).1,
    (h.2 "pkg.B.g" (by decide)).1 (by decide)⟩

/-- `__n_not_set_to_most_common_value`: total parameter occurrences minus
the occurrence count of the most-common stringified value; 0 for an unused
parameter with no recorded values (the source checks both conditions).
Python's `max()` over an empty sequence raises `ValueError`; that branch is
modelled as `none`.  The source indexes both dicts directly (`KeyError`
when absent); an absent key is modelled as empty. -/
def n_not_set_to_most_common_value (parameter_qname : String)
    (parameter_usages : AList (List ParameterUsage))
    (value_usages : AList (AList (List ValueUsage))) : Option Int :=
  if (lookupD parameter_usages parameter_qname []).length = 0 ∧
      (lookupD value_usages parameter_qname []).length = 0 then
    some 0
  else
    match ((lookupD value_usages parameter_qname []).map (fun it => it.2.length)).max? with
    | none => none
    | some n_set_to_most_commonly_used_value =>
        some (((lookupD parameter_usages parameter_qname []).length : Int) -
          n_set_to_most_commonly_used_value)

/-- Claim C8: for a parameter key present in both maps, the
"not-most-common" measure is the total occurrence count minus the count of
the most-common stringified value, and it is 0 for a parameter with zero
occurrences and no recorded values. -/
theorem claim_C8 (parameter_qname : String)
    (parameter_usages : AList (List ParameterUsage))
    (value_usages : AList (AList (List ValueUsage)))
    (_h1 : parameter_qname ∈ keysOf parameter_usages)
    (_h2 : parameter_qname ∈ keysOf value_usages) :
    (∀ m, ((lookupD value_usages parameter_qname []).map (fun it => it.2.length)).max? = some m →
        n_not_set_to_most_common_value parameter_qname parameter_usages value_usages =
          some (((lookupD parameter_usages parameter_qname []).length : Int) - m))
    ∧ ((lookupD parameter_usages parameter_qname []).length = 0 ∧
          lookupD value_usages parameter_qname [] = [] →
        n_not_set_to_most_common_value parameter_qname parameter_usages value_usages =
          some 0) := by
  constructor
  · intro m hm
    unfold n_not_set_to_most_common_value
    have hvne : (lookupD value_usages parameter_qname []).length ≠ 0 := by
      intro h0
      rw [List.length_eq_zero] at h0
      rw [h0] at hm
      simp at hm
    rw [if_neg (fun hcontra => hvne hcontra.2), hm]
  · rintro ⟨ht, hv⟩
    unfold n_not_set_to_most_common_value
    rw [if_pos ⟨ht, by rw [hv]; rfl⟩]

/-- Concrete maps for the C8 witness: parameter `f.x` occurs 3 times, set to
`"1"` twice and `"2"` once, so the measure is 3 - 2 = 1. -/
def C8loc1 : Location := ⟨"a.py", some 1, some 0⟩

def C8loc2 : Location := ⟨"a.py", some 2, some 0⟩

def C8loc3 : Location := ⟨"a.py", some 3, some 0⟩

def C8parameter_usages : AList (List ParameterUsage) :=
  [("f.x", [⟨"f.x", C8loc1⟩, ⟨"f.x", C8loc2⟩, ⟨"f.x", C8loc3⟩])]

def C8value_usages : AList (AList (List ValueUsage)) :=
  [("f.x", [("1", [⟨"f.x", "1", C8loc1⟩, ⟨"f.x", "1", C8loc2⟩]), ("2", [⟨"f.x", "2", C8loc3⟩])])]

/-- Witness for claim C8 at the concrete maps: the measure of `f.x` is 1. -/
theorem claim_C8_witness :
    n_not_set_to_most_common_value "f.x" C8parameter_usages C8value_usages = some 1 := by
  have h := (claim_C8 "f.x" C8parameter_usages C8value_usages (by decide) (by decide)).1
    2 (by decide)
  rw [h]
  decide

end PythonAnalyzer
